import Mathlib

/-!
Verification of the chors task-manager core: ordered persistent map, task tree,
filter expression engine, tree filtering, selection stability, completion
propagation, and the bounded undo/redo history, modelled shallowly from the
Rust sources (src/utils.rs, src/model/task.rs, src/model/filter.rs,
src/parse.rs, src/model/model.rs, src/update/history.rs, src/update/update.rs).
Uuids are modelled as natural numbers; completion timestamps are modelled by
their presence (a Bool), since only `is_some` of the timestamp is ever observed.
-/

namespace Chors

/-! ## Ordered persistent map (src/utils.rs, PersistentIndexMap)

The Rust struct pairs a hash map with an insertion-order vector; `insert`
appends the key to the order only when absent, and otherwise only replaces the
value, so the order always lists exactly the map's keys without duplicates.
We represent such a map by its insertion-ordered entry list. -/

abbrev PMap (V : Type) := List (Nat × V)

namespace PMap

def keys {V : Type} (m : PMap V) : List Nat := m.map (·.1)

def containsKey {V : Type} (m : PMap V) (k : Nat) : Bool := m.any (·.1 == k)

/-- `PersistentIndexMap::get`: the value stored at a key (the first entry
with that key). -/
def getv {V : Type} : PMap V → Nat → Option V
  | [], _ => none
  | e :: tl, k => if e.1 == k then some e.2 else getv tl k

/-- `PersistentIndexMap::insert`: replace in place when the key is present,
append otherwise. -/
def insertPM {V : Type} (m : PMap V) (k : Nat) (v : V) : PMap V :=
  if containsKey m k then m.map (fun e => if e.1 == k then (k, v) else e)
  else m ++ [(k, v)]

/-- `PersistentIndexMap::remove`: drop the key, preserving relative order. -/
def removeKey {V : Type} (m : PMap V) (k : Nat) : PMap V :=
  if containsKey m k then m.filter (fun e => ¬ (e.1 == k)) else m

/-- `PersistentIndexMap::get_index`: position of a key in insertion order. -/
def getIndex {V : Type} (m : PMap V) (k : Nat) : Option Nat :=
  (keys m).findIdx? (· == k)

/-- `PersistentIndexMap::get_key_at_index`. -/
def getKeyAtIndex {V : Type} (m : PMap V) (i : Nat) : Option Nat :=
  (keys m).get? i

def lenPM {V : Type} (m : PMap V) : Nat := m.length

end PMap

open PMap

/-! ## Task tree (src/model/task.rs) -/

inductive Task : Type where
  | mk (id : Nat) (description : String) (tags : List String)
       (contexts : List String) (completed : Bool)
       (subtasks : List (Nat × Task)) : Task
deriving Repr

namespace Task

def id : Task → Nat | mk i _ _ _ _ _ => i
def description : Task → String | mk _ d _ _ _ _ => d
def tags : Task → List String | mk _ _ t _ _ _ => t
def contexts : Task → List String | mk _ _ _ c _ _ => c
def completed : Task → Bool | mk _ _ _ _ c _ => c
def subtasks : Task → List (Nat × Task) | mk _ _ _ _ _ s => s

end Task

/-- `flatten_tasks` (src/model/model.rs): pre-order flattening of ids. -/
def flattenTasks : PMap Task → List Nat
  | [] => []
  | (k, Task.mk _ _ _ _ _ subs) :: tl =>
      (k :: flattenTasks subs) ++ flattenTasks tl

/-- `Task::with_flip_completed` (src/model/task.rs): flip the completion of
the task and, recursively, of every subtask. -/
def withFlipCompleted : Task → Task
  | Task.mk i d tg cx c subs => Task.mk i d tg cx (!c) (flipSubs subs)
where
  flipSubs : List (Nat × Task) → List (Nat × Task)
    | [] => []
    | (k, t) :: tl => (k, withFlipCompleted t) :: flipSubs tl

/-! ## Filter conditions (src/model/filter.rs) -/

/-- Rust `str::contains`: the pattern occurs as a contiguous substring. -/
def strContains (hay pat : String) : Bool := decide (pat.data <:+: hay.data)

inductive Condition : Type where
  | tag (t : String)
  | context (c : String)
  | completion (b : Bool)
  | text (s : String)
  | nottc (c : Condition)
  | andc (l r : Condition)
  | orc (l r : Condition)
  | alwaysTrue
deriving Repr, DecidableEq

/-- `Condition::evaluate` together with the leaf `evaluate` impls
(`Tag::evaluate`, `Context::evaluate`, `Completion::evaluate`,
`Text::evaluate`). -/
def Condition.evaluate : Condition → Task → Bool
  | .tag t, task => task.tags.contains t
  | .context c, task => task.contexts.contains c
  | .completion b, task => task.completed == b
  | .text s, task => strContains task.description s
  | .nottc c, task => !(c.evaluate task)
  | .andc l r, task => l.evaluate task && r.evaluate task
  | .orc l r, task => l.evaluate task || r.evaluate task
  | .alwaysTrue, _ => true

structure FilterCondition : Type where
  expression : String
  condition : Condition
deriving Repr, DecidableEq

structure Filter : Type where
  id : Nat
  name : String
  filterCondition : FilterCondition
deriving Repr, DecidableEq

/-! ## Tree filtering (src/model/model.rs, `filter_tasks` and helpers) -/

abbrev VisMap := PMap (List Nat)

mutual

/-- `filter_tasks_include_all`: include a task and its whole subtree. -/
def filterIncludeAll (tid : Nat) (t : Task) (path : List Nat)
    (results : VisMap) : VisMap :=
  match t with
  | Task.mk _ _ _ _ _ subs =>
      filterIncludeAllList subs (path ++ [tid])
        (insertPM results tid (path ++ [tid]))

def filterIncludeAllList (subs : List (Nat × Task)) (path : List Nat)
    (results : VisMap) : VisMap :=
  match subs with
  | [] => results
  | (k, st) :: tl =>
      filterIncludeAllList tl path (filterIncludeAll k st path results)

/-- `filter_tasks_recursive`: returns the accumulated results together with
whether this subtree reported a match. -/
def filterRec (cond : Condition) (tid : Nat) (t : Task) (path : List Nat)
    (results : VisMap) (parentMatches : Bool) : VisMap × Bool :=
  match t with
  | Task.mk i d tg cx c subs =>
      let cur := Task.mk i d tg cx c subs
      let newPath := path ++ [tid]
      if parentMatches || cond.evaluate cur then
        (filterIncludeAllList subs newPath (insertPM results tid newPath), true)
      else
        let r := filterRecList cond subs newPath results
        if r.2 then (insertPM r.1 tid newPath, true) else (r.1, false)

def filterRecList (cond : Condition) (subs : List (Nat × Task))
    (path : List Nat) (results : VisMap) : VisMap × Bool :=
  match subs with
  | [] => (results, false)
  | (k, st) :: tl =>
      let r1 := filterRec cond k st path results false
      let r2 := filterRecList cond tl path r1.1
      (r2.1, r1.2 || r2.2)

end

/-- `filter_tasks`: run `filter_tasks_recursive` over every root in order,
starting from empty results and `parent_matches = false`. -/
def filter_tasks (tasks : PMap Task) (cond : Condition) : VisMap :=
  (filterRecList cond tasks [] []).1

/-! ## Path resolution (src/model/model.rs, `Model::get_task`) -/

/-- `Model::get_task` generalised to any forest: resolve a path of ids to the
task it designates; the empty path resolves to nothing. -/
def taskAt : PMap Task → List Nat → Option Task
  | _, [] => none
  | ts, k :: rest =>
      match getv ts k with
      | none => none
      | some t => if rest.isEmpty then some t else taskAt t.subtasks rest

/-! ## Completion propagation (src/model/model.rs) -/

/-- `flip_task_and_update_parents`: flip the subtree at the end of the path,
then recompute each ancestor's completion as the AND of its (new) children. -/
def flipTaskAndUpdateParents : PMap Task → List Nat →
    Except String (PMap Task)
  | _, [] => .error "Path is empty; cannot flip task completion"
  | tasks, k :: rest =>
      match getv tasks k with
      | none => .error s!"Task with ID {k} not found"
      | some t =>
          if rest.isEmpty then
            .ok (insertPM tasks k (withFlipCompleted t))
          else
            match flipTaskAndUpdateParents t.subtasks rest with
            | .error e => .error e
            | .ok newSubs =>
                let allDone := newSubs.all (fun e => e.2.completed)
                .ok (insertPM tasks k
                  (Task.mk t.id t.description t.tags t.contexts allDone newSubs))

/-- `insert_task_and_uncomplete_parents`: insert the task as a child of the
task at the path (at the root for the empty path), clearing completion on
every task along the path. -/
def insertTaskAndUncompleteParents : PMap Task → List Nat → Task →
    Except String (PMap Task)
  | tasks, [], task => .ok (insertPM tasks task.id task)
  | tasks, k :: rest, task =>
      match getv tasks k with
      | none => .error s!"Task with ID {k} not found"
      | some cur =>
          match insertTaskAndUncompleteParents cur.subtasks rest task with
          | .error e => .error e
          | .ok newSubs =>
              .ok (insertPM tasks k
                (Task.mk cur.id cur.description cur.tags cur.contexts false
                  newSubs))

/-- `remove_task_at_path`. -/
def removeTaskAtPath : PMap Task → List Nat → Except String (PMap Task)
  | _, [] => .error "Path is empty; cannot remove task"
  | tasks, k :: rest =>
      match rest with
      | [] =>
          if containsKey tasks k then .ok (removeKey tasks k)
          else .error s!"Task with ID {k} not found"
      | _ =>
          match getv tasks k with
          | none => .error s!"Task with ID {k} not found"
          | some cur =>
              match removeTaskAtPath cur.subtasks rest with
              | .error e => .error e
              | .ok newSubs =>
                  .ok (insertPM tasks k
                    (Task.mk cur.id cur.description cur.tags cur.contexts
                      cur.completed newSubs))

/-! ## Selection stability (src/model/model.rs, `bfs_find_closest_task`) -/

/-- The body of the `while offset <= max_offset` loop; `fuel` counts the
remaining iterations, i.e. `max_offset + 1 - offset`. -/
def bfsLoop (flat : List Nat) (filtered : VisMap) (selIdx : Nat)
    (offset fuel : Nat) : Option Nat :=
  if fuel = 0 then none
  else
    let fwdHit :=
      match flat.get? (selIdx + offset) with
      | some fid => if containsKey filtered fid then some fid else none
      | none => none
    match fwdHit with
    | some fid => some fid
    | none =>
        let bwdHit :=
          if 0 < offset ∧ offset ≤ selIdx then
            match flat.get? (selIdx - offset) with
            | some bid => if containsKey filtered bid then some bid else none
            | none => none
          else none
        match bwdHit with
        | some bid => some bid
        | none => bfsLoop flat filtered selIdx (offset + 1) (fuel - 1)
termination_by fuel

/-- `bfs_find_closest_task`: flatten the tree, locate the selection, then
search outward (forward first, then backward) by increasing offset. -/
def bfsFindClosestTask (taskTree : PMap Task) (filtered : VisMap)
    (selectedTaskId : Nat) : Option Nat :=
  let flat := flattenTasks taskTree
  match flat.findIdx? (· == selectedTaskId) with
  | none => none
  | some selIdx => bfsLoop flat filtered selIdx 0 (max flat.length selIdx + 1)

/-! ## Filter text parsing (src/parse.rs and src/model/filter.rs)

The nom parsers are modelled as functions from the remaining input (a list of
characters, standing for the `&str` slice) to `Option (rest × value)`;
`none` is a nom error. -/

inductive Token : Type where
  | tagTok (name : String)
  | contextTok (name : String)
  | quotedText (chars : List Char)
  | notOp
  | andOp
  | orOp
  | completedTok
  | incompleteTok
  | paren (c : Char)
deriving Repr, DecidableEq

/-- The character class of `take_while1` in `parse_tag`/`parse_context`:
`c.is_alphanumeric() || c == '_' || c == '-'` (restricted to ASCII
alphanumerics in this model). -/
def isTagIdentChar (c : Char) : Bool := c.isAlphanum || c == '_' || c == '-'

/-- nom `take_while1`: the longest nonempty prefix of matching characters. -/
def takeWhile1 (p : Char → Bool) (i : List Char) :
    Option (List Char × List Char) :=
  let pre := i.takeWhile p
  if pre.isEmpty then none else some (i.dropWhile p, pre)

/-- `parse_tag`: `#` followed by at least one identifier character; the token
carries the identifier without the sentinel. -/
def parseTag : List Char → Option (List Char × Token)
  | '#' :: r1 =>
      match takeWhile1 isTagIdentChar r1 with
      | some (r2, body) => some (r2, .tagTok (String.mk body))
      | none => none
  | _ => none

/-- `parse_context`. -/
def parseContext : List Char → Option (List Char × Token)
  | '@' :: r1 =>
      match takeWhile1 isTagIdentChar r1 with
      | some (r2, body) => some (r2, .contextTok (String.mk body))
      | none => none
  | _ => none

/-- `parse_quoted_text`: `recognize(delimited(char('"'), is_not("\x22"),
opt(char('"'))))` — an opening quote, at least one non-quote character, and
an optional closing quote; the token carries the recognized slice, quotes
included. -/
def parseQuotedText : List Char → Option (List Char × Token)
  | '"' :: r1 =>
      match takeWhile1 (fun c => !(c == '"')) r1 with
      | some (r2, body) =>
          match r2 with
          | '"' :: r3 => some (r3, .quotedText ('"' :: (body ++ ['"'])))
          | _ => some (r2, .quotedText ('"' :: body))
      | none => none
  | _ => none

/-- nom `tag_no_case`, returning the remaining input. -/
def tagNoCase : List Char → List Char → Option (List Char)
  | [], i => some i
  | _ :: _, [] => none
  | p :: ps, c :: cs => if c.toLower == p.toLower then tagNoCase ps cs else none

def parseNotOp (i : List Char) : Option (List Char × Token) :=
  (tagNoCase ['n', 'o', 't'] i).map (fun r => (r, Token.notOp))

def parseAndOp (i : List Char) : Option (List Char × Token) :=
  (tagNoCase ['a', 'n', 'd'] i).map (fun r => (r, Token.andOp))

def parseOrOp (i : List Char) : Option (List Char × Token) :=
  (tagNoCase ['o', 'r'] i).map (fun r => (r, Token.orOp))

/-- `parse_completed`: the exact marker `[x]`. -/
def parseCompleted : List Char → Option (List Char × Token)
  | '[' :: 'x' :: ']' :: r => some (r, .completedTok)
  | _ => none

/-- `parse_incomplete`: the exact marker `[ ]`. -/
def parseIncomplete : List Char → Option (List Char × Token)
  | '[' :: ' ' :: ']' :: r => some (r, .incompleteTok)
  | _ => none

/-- `parse_parenthesis`: `one_of("()")`. -/
def parseParen : List Char → Option (List Char × Token)
  | c :: r => if c == '(' || c == ')' then some (r, .paren c) else none
  | [] => none

/-- nom `multispace0`, normalised to just the remaining input. -/
def multispace0 (i : List Char) : List Char :=
  i.dropWhile (fun c => c == ' ' || c == '\t' || c == '\n' || c == '\r')

/-- Rust `str::trim_matches('"')`: strip all leading and trailing quotes. -/
def trimMatchesQuote (cs : List Char) : List Char :=
  ((cs.dropWhile (· == '"')).reverse.dropWhile (· == '"')).reverse

/-- nom `alt` for two already-run branches. -/
def altO {α : Type} (a b : Option α) : Option α :=
  match a with
  | some x => some x
  | none => b

/-- `tag_condition` (src/model/filter.rs). -/
def tagCondition (i : List Char) : Option (List Char × Condition) :=
  match parseTag i with
  | some (r, .tagTok nm) => some (r, Condition.tag nm)
  | _ => none

/-- `context_condition`. -/
def contextCondition (i : List Char) : Option (List Char × Condition) :=
  match parseContext i with
  | some (r, .contextTok nm) => some (r, Condition.context nm)
  | _ => none

/-- `text_condition`: a quoted-text token with the quotes trimmed off. -/
def textCondition (i : List Char) : Option (List Char × Condition) :=
  match parseQuotedText i with
  | some (r, .quotedText q) =>
      some (r, Condition.text (String.mk (trimMatchesQuote q)))
  | _ => none

def completedCondition (i : List Char) : Option (List Char × Condition) :=
  match parseCompleted i with
  | some (r, _) => some (r, Condition.completion true)
  | none => none

def incompleteCondition (i : List Char) : Option (List Char × Condition) :=
  match parseIncomplete i with
  | some (r, _) => some (r, Condition.completion false)
  | none => none

/-- The unused helper `identifier` (src/model/filter.rs:347): unlike
`parse_tag`/`parse_context` it also accepts `.`; no parse path calls it. -/
def identifier (i : List Char) : Option (List Char × List Char) :=
  takeWhile1 (fun c => c.isAlphanum || c == '.' || c == '_' || c == '-') i

/- The recursive-descent grammar `expression`/`term`/`factor`/`operand`.
`fuel` bounds the recursion depth; every fuel-consuming recursive call
(`factor` after `not`, `expression` after `(`, and each `many0` iteration
after an operator) strictly consumes input, so `input.length + 1` fuel is
never exhausted. -/
mutual

/-- `expression` (src/model/filter.rs). -/
def expressionP (fuel : Nat) (i : List Char) :
    Option (List Char × Condition) :=
  if fuel = 0 then none
  else
    match termP fuel i with
    | none => none
    | some (r, first) => exprTail fuel first r
termination_by (fuel, 5)

/-- `many0(pair(preceded(multispace0, or), preceded(multispace0, term)))`,
folded left into `Or` nodes; a failed iteration ends the loop and restores
the input to before the iteration. -/
def exprTail (fuel : Nat) (acc : Condition) (i : List Char) :
    Option (List Char × Condition) :=
  if fuel = 0 then some (i, acc)
  else
    match parseOrOp (multispace0 i) with
    | none => some (i, acc)
    | some (r1, _) =>
        match termP fuel (multispace0 r1) with
        | none => some (i, acc)
        | some (r2, t) => exprTail (fuel - 1) (Condition.orc acc t) r2
termination_by (fuel, 4)

/-- `term`. -/
def termP (fuel : Nat) (i : List Char) : Option (List Char × Condition) :=
  if fuel = 0 then none
  else
    match factorP fuel i with
    | none => none
    | some (r, first) => termTail fuel first r
termination_by (fuel, 3)

/-- The `many0` loop of `term`, folded into `And` nodes. -/
def termTail (fuel : Nat) (acc : Condition) (i : List Char) :
    Option (List Char × Condition) :=
  if fuel = 0 then some (i, acc)
  else
    match parseAndOp (multispace0 i) with
    | none => some (i, acc)
    | some (r1, _) =>
        match factorP fuel (multispace0 r1) with
        | none => some (i, acc)
        | some (r2, t) => termTail (fuel - 1) (Condition.andc acc t) r2
termination_by (fuel, 2)

/-- `factor`: `alt((not-prefixed factor, operand))`; any failure in the first
branch backtracks to `operand` on the original input. -/
def factorP (fuel : Nat) (i : List Char) : Option (List Char × Condition) :=
  if fuel = 0 then none
  else
    match parseNotOp i with
    | some (r1, _) =>
        (match factorP (fuel - 1) (multispace0 r1) with
         | some (r2, c) => some (r2, Condition.nottc c)
         | none => operandP fuel i)
    | none => operandP fuel i
termination_by (fuel, 1)

/-- `operand`: a parenthesized expression, else the completed/incomplete
markers, else tag, context, and quoted-text conditions, tried in order. -/
def operandP (fuel : Nat) (i : List Char) : Option (List Char × Condition) :=
  if fuel = 0 then none
  else
    let rest :=
      altO (completedCondition i)
        (altO (incompleteCondition i)
          (altO (tagCondition i)
            (altO (contextCondition i) (textCondition i))))
    match parseParen i with
    | some (r1, _) =>
        (match expressionP (fuel - 1) r1 with
         | some (r2, c) =>
             match parseParen r2 with
             | some (r3, _) => some (r3, c)
             | none => rest
         | none => rest)
    | none => rest
termination_by (fuel, 0)

end

/-- `parse_filter_expression`: whitespace-only input (i.e. `trim().is_empty()`)
is the always-true condition; otherwise the input must be consumed entirely
(`all_consuming`). The Rust error strings carry nom's diagnostic rendering;
only success versus failure matters below. -/
def parseFilterExpression (input : List Char) : Except String Condition :=
  if input.all Char.isWhitespace then .ok Condition.alwaysTrue
  else
    match expressionP (input.length + 1) input with
    | some ([], c) => .ok c
    | some (_ :: _, _) => .error "Parsing error: unconsumed input"
    | none => .error "Parsing error"

/-! ## Application state (src/model/model.rs, `Model`) -/

inductive Overlay : Type where
  | addingSiblingTask
  | addingChildTask
  | noOverlay
deriving Repr, DecidableEq

inductive Mode : Type where
  | list
  | quit
deriving Repr, DecidableEq

inductive DisplayMessage : Type where
  | success (msg : String)
  | error (msg : String)
  | nomsg
deriving Repr, DecidableEq

structure Model : Type where
  tasks : PMap Task
  filters : PMap Filter
  selectedFilterId : Option Nat
  currentFilter : FilterCondition
  filteredTasks : VisMap
  selectedTask : Option Nat
  message : DisplayMessage
  mode : Mode
  overlay : Overlay
  input : String
  cursor : Nat

namespace Model

/-- `Model::new`; the default filter's freshly generated uuid is a parameter. -/
def new (defaultFilterId : Nat) : Model where
  tasks := []
  filters := [(defaultFilterId,
    { id := defaultFilterId, name := "default",
      filterCondition := ⟨"", Condition.alwaysTrue⟩ })]
  selectedFilterId := some defaultFilterId
  currentFilter := ⟨"", Condition.alwaysTrue⟩
  filteredTasks := []
  selectedTask := none
  message := .nomsg
  mode := .list
  overlay := .noOverlay
  input := ""
  cursor := 0

def withSuccess (m : Model) (s : String) : Model := { m with message := .success s }

def withError (m : Model) (s : String) : Model := { m with message := .error s }

/-- `Model::get_path`: the stored path of the selected task. -/
def getPath (m : Model) : Option (List Nat) :=
  m.selectedTask.bind (fun sel => getv m.filteredTasks sel)

/-- `Model::get_new_selection`: desired id if visible, else previous selection
if visible, else nearest id in the flattened (pre-mutation) tree, else the
first visible key. -/
def getNewSelection (m : Model) (filtered : VisMap) (desired : Option Nat) :
    Option Nat :=
  let rest :=
    match m.selectedTask with
    | some sel =>
        if containsKey filtered sel then some sel
        else
          match bfsFindClosestTask m.tasks filtered sel with
          | some c => some c
          | none => getKeyAtIndex filtered 0
    | none => getKeyAtIndex filtered 0
  match desired with
  | some d => if containsKey filtered d then some d else rest
  | none => rest

/-- `Model::with_tasks`: swap in a new tree, refilter, reselect. -/
def withTasks (m : Model) (tasks : PMap Task) (desired : Option Nat) : Model :=
  let ft := filter_tasks tasks m.currentFilter.condition
  { m with tasks := tasks, filteredTasks := ft,
           selectedTask := m.getNewSelection ft desired }

/-- `Model::with_flipped_completion`. -/
def withFlippedCompletion (m : Model) (path : List Nat) :
    Except String Model :=
  match flipTaskAndUpdateParents m.tasks path with
  | .error e => .error e
  | .ok nt =>
      let ft := filter_tasks nt m.currentFilter.condition
      .ok { m with tasks := nt, filteredTasks := ft,
                   selectedTask := m.getNewSelection ft none }

/-- `Model::with_removed_task`. -/
def withRemovedTask (m : Model) (path : List Nat) : Except String Model :=
  match removeTaskAtPath m.tasks path with
  | .error e => .error e
  | .ok nt =>
      let ft := filter_tasks nt m.currentFilter.condition
      .ok { m with tasks := nt, filteredTasks := ft,
                   selectedTask := m.getNewSelection ft none }

/-- `Model::with_sibling_task`: insert next to the selection (at its parent's
level) when the selection is nested, otherwise at the root level. -/
def withSiblingTask (m : Model) (task : Task) : Except String Model :=
  match m.getPath with
  | some path =>
      if 2 ≤ path.length then
        match insertTaskAndUncompleteParents m.tasks path.dropLast task with
        | .error e => .error e
        | .ok nt => .ok (m.withTasks nt (some task.id))
      else .ok (m.withTasks (insertPM m.tasks task.id task) (some task.id))
  | none => .ok (m.withTasks (insertPM m.tasks task.id task) (some task.id))

/-- `Model::with_child_task`. -/
def withChildTask (m : Model) (task : Task) : Except String Model :=
  match m.getPath with
  | some path =>
      if path.isEmpty then
        .error "Can't insert a child task with no parent task selected"
      else
        match insertTaskAndUncompleteParents m.tasks path task with
        | .error e => .error e
        | .ok nt => .ok (m.withTasks nt (some task.id))
  | none => .error "Can't insert a child task with no parent task selected"

/-- `Model::with_filter`. -/
def withFilter (m : Model) (f : Filter) : Model :=
  { m with filters := insertPM m.filters f.id f }

/-- `Model::with_filter_condition`. -/
def withFilterCondition (m : Model) (f : FilterCondition) : Model :=
  let ft := filter_tasks m.tasks f.condition
  { m with filteredTasks := ft, selectedTask := m.getNewSelection ft none,
           currentFilter := f }

/-- `Model::with_filter_select`. -/
def withFilterSelect (m : Model) (filterId : Nat) : Except String Model :=
  match getv m.filters filterId with
  | some f =>
      let ft := filter_tasks m.tasks f.filterCondition.condition
      .ok { m with selectedFilterId := some filterId,
                   currentFilter := f.filterCondition,
                   filteredTasks := ft,
                   selectedTask := m.getNewSelection ft none }
  | none => .error s!"Filter with ID {filterId} not found."

inductive Direction : Type where
  | up
  | down
deriving Repr, DecidableEq

/-- `Model::with_selection_moved`. In the source, a present selection that is
missing from the visible-set panics (`expect`); that state is unreachable
under the selection invariant, and the model returns the state unchanged
there since a panic has no shallow representation. -/
def withSelectionMoved (m : Model) (dir : Direction) : Model :=
  let cnt := lenPM m.filteredTasks
  if cnt = 0 then m
  else
    match m.selectedTask with
    | none =>
        let sel :=
          match dir with
          | .up => getKeyAtIndex m.filteredTasks (cnt - 1)
          | .down => getKeyAtIndex m.filteredTasks 0
        { m with selectedTask := sel }
    | some sel =>
        match getIndex m.filteredTasks sel with
        | none => m
        | some i =>
            let ni :=
              match dir with
              | .up => if i = 0 then cnt - 1 else i - 1
              | .down => if i = cnt - 1 then 0 else i + 1
            { m with selectedTask := getKeyAtIndex m.filteredTasks ni }

end Model

/-! ## Messages and history (src/update/message.rs, src/update/history.rs) -/

inductive Message : Type where
  | addSiblingTask (task : Task)
  | addChildTask (task : Task)
  | removeTask (path : List Nat)
  | addFilter (filter : Filter)
  | selectFilter (filterId : Nat)
  | applyFilter (filter : FilterCondition)
  | navigate (direction : Model.Direction)
  | undo
  | redo

structure History : Type where
  undoStack : List (Model × Message)
  redoStack : List (Model × Message)
  lastAction : Option Message
  maxHistory : Nat

namespace History

def new (maxHistory : Nat) : History :=
  { undoStack := [], redoStack := [], lastAction := none,
    maxHistory := maxHistory }

/-- `History::push`: evict the oldest undo entry when at capacity, append the
new entry, clear the redo stack. The back of the deque is the list's end. -/
def push (h : History) (m : Model) (msg : Message) : History :=
  let u := if h.undoStack.length = h.maxHistory then h.undoStack.tail
           else h.undoStack
  { undoStack := u ++ [(m, msg)], redoStack := [], lastAction := none,
    maxHistory := h.maxHistory }

/-- `History::undo`: pop the newest undo entry, push the live model (paired
with the popped entry's action) onto the redo stack, and hand back the popped
snapshot; on an empty stack, report nothing and change nothing. -/
def undoOp (h : History) (current : Model) : Option Model × History :=
  match h.undoStack.getLast? with
  | none => (none, h)
  | some (prev, msg) =>
      (some prev,
       { undoStack := h.undoStack.dropLast,
         redoStack := h.redoStack ++ [(current, msg)],
         lastAction := some msg, maxHistory := h.maxHistory })

/-- `History::redo`: the mirror image of `undo`. -/
def redoOp (h : History) (current : Model) : Option Model × History :=
  match h.redoStack.getLast? with
  | none => (none, h)
  | some (next, msg) =>
      (some next,
       { undoStack := h.undoStack ++ [(current, msg)],
         redoStack := h.redoStack.dropLast,
         lastAction := some msg, maxHistory := h.maxHistory })

end History

/-! ## The update function (src/update/update.rs) -/

structure UpdateResult : Type where
  model : Model
  message : Option String
  saveToHistory : Bool

/-- Stands in for the derived `Debug` rendering used in undo/redo status
messages; the exact text is irrelevant to every property below. -/
def messageDebug : Message → String
  | .addSiblingTask _ => "AddSiblingTask"
  | .addChildTask _ => "AddChildTask"
  | .removeTask _ => "RemoveTask"
  | .addFilter _ => "AddFilter"
  | .selectFilter _ => "SelectFilter"
  | .applyFilter _ => "ApplyFilter"
  | .navigate _ => "Navigate"
  | .undo => "Undo"
  | .redo => "Redo"

/-- The `match` over the message inside `update`: either an `UpdateResult`
together with the (possibly advanced) history, or the error string. -/
def updateStep (msg : Message) (m : Model) (h : History) :
    Except String (UpdateResult × History) :=
  match msg with
  | .addSiblingTask task =>
      match m.withSiblingTask task with
      | .error e => .error e
      | .ok nm => .ok (⟨nm, some "Added sibling task.", true⟩, h)
  | .addChildTask task =>
      match m.withChildTask task with
      | .error e => .error e
      | .ok nm => .ok (⟨nm, some "Added child task.", true⟩, h)
  | .removeTask path =>
      match m.withRemovedTask path with
      | .error e => .error e
      | .ok nm => .ok (⟨nm, some "Removed task.", true⟩, h)
  | .addFilter f => .ok (⟨m.withFilter f, some "Added new filter.", true⟩, h)
  | .selectFilter fid =>
      match m.withFilterSelect fid with
      | .error e => .error e
      | .ok nm => .ok (⟨nm, some "Selected filter.", true⟩, h)
  | .applyFilter f =>
      .ok (⟨m.withFilterCondition f, some "Selected filter", true⟩, h)
  | .navigate dir => .ok (⟨m.withSelectionMoved dir, none, false⟩, h)
  | .undo =>
      match h.undoOp m with
      | (some prev, h') =>
          let s :=
            match h'.lastAction with
            | some a => "Undid action: " ++ messageDebug a
            | none => "Undid last action."
          .ok (⟨prev, some s, false⟩, h')
      | (none, _) => .error "Nothing to undo!"
  | .redo =>
      match h.redoOp m with
      | (some next, h') =>
          let s :=
            match h'.lastAction with
            | some a => "Redid action: " ++ messageDebug a
            | none => "Redid last action."
          .ok (⟨next, some s, false⟩, h')
      | (none, _) => .error "Nothing to redo!"

/-- `update`: on success, optionally push the resulting model to history and
attach the success message; on failure, return the input model with only an
error message attached. -/
def update (msg : Message) (m : Model) (h : History) : Model × History :=
  match updateStep msg m h with
  | .ok (r, h1) =>
      let h2 := if r.saveToHistory then h1.push r.model msg else h1
      (match r.message with
       | some s => r.model.withSuccess s
       | none => r.model, h2)
  | .error e => (m.withError e, h)

/-! ## Basic lemmas about the ordered map -/

lemma containsKey_iff_mem_keys {V : Type} (m : PMap V) (k : Nat) :
    containsKey m k = true ↔ k ∈ keys m := by
  simp [containsKey, keys, List.any_eq_true, List.mem_map, beq_iff_eq]

lemma exists_getv_of_containsKey {V : Type} (m : PMap V) (k : Nat)
    (h : containsKey m k = true) : ∃ w, getv m k = some w := by
  induction m with
  | nil => simp [containsKey] at h
  | cons e tl ih =>
      by_cases h' : e.1 = k
      · exact ⟨e.2, by simp [getv, h']⟩
      · have ht : containsKey tl k = true := by
          simp only [containsKey, List.any_cons, Bool.or_eq_true,
            beq_iff_eq] at h
          rcases h with h | h
          · exact absurd h h'
          · exact h
        obtain ⟨w, hw⟩ := ih ht
        exact ⟨w, by simp [getv, h', hw]⟩

lemma keys_insertPM {V : Type} (m : PMap V) (k : Nat) (v : V) :
    keys (insertPM m k v) =
      if containsKey m k then keys m else keys m ++ [k] := by
  unfold insertPM
  split
  · simp only [keys, List.map_map]
    apply List.map_congr_left
    intro e _
    by_cases h : e.1 = k
    · simp [h]
    · simp [h]
  · simp [keys]

lemma mem_keys_insertPM {V : Type} (m : PMap V) (k j : Nat) (v : V) :
    j ∈ keys (insertPM m k v) ↔ j = k ∨ j ∈ keys m := by
  rw [keys_insertPM]
  split
  · rename_i h
    constructor
    · intro hj
      exact Or.inr hj
    · rintro (rfl | hj)
      · exact (containsKey_iff_mem_keys m j).mp h
      · exact hj
  · simp [or_comm]

lemma containsKey_insertPM {V : Type} (m : PMap V) (k j : Nat) (v : V) :
    containsKey (insertPM m k v) j = true ↔ j = k ∨ containsKey m j = true := by
  rw [containsKey_iff_mem_keys, mem_keys_insertPM]
  simp [containsKey_iff_mem_keys]

lemma getv_map_replace {V : Type} (m : PMap V) (k : Nat) (v : V) (j : Nat) :
    getv (m.map (fun e => if e.1 == k then (k, v) else e)) j =
      if j = k then (getv m k).map (fun _ => v) else getv m j := by
  induction m with
  | nil => simp [getv]
  | cons e tl ih =>
      by_cases hek : e.1 = k
      · by_cases hjk : j = k
        · subst hjk
          simp [getv, hek]
        · have ih' := ih
          simp only [hjk, if_false] at ih'
          simpa [getv, hek, hjk, Ne.symm hjk] using ih'
      · by_cases hje : e.1 = j
        · subst hje
          simp [getv, hek, Ne.symm hek]
        · simpa [getv, hek, hje] using ih

lemma getv_append {V : Type} (m₁ m₂ : PMap V) (j : Nat) :
    getv (m₁ ++ m₂) j =
      match getv m₁ j with
      | some v => some v
      | none => getv m₂ j := by
  induction m₁ with
  | nil => simp [getv]
  | cons e tl ih =>
      by_cases hje : e.1 = j
      · simp [getv, hje]
      · simp [getv, hje, ih]

lemma getv_eq_none_of_not_containsKey {V : Type} (m : PMap V) (k : Nat)
    (h : ¬ containsKey m k = true) : getv m k = none := by
  induction m with
  | nil => simp [getv]
  | cons e tl ih =>
      simp only [containsKey, List.any_cons, Bool.or_eq_true,
        beq_iff_eq] at h
      push_neg at h
      simp only [getv, beq_iff_eq, h.1, if_false]
      exact ih (by simp [containsKey, beq_iff_eq, h.2])

lemma getv_insertPM {V : Type} (m : PMap V) (k : Nat) (v : V) (j : Nat) :
    getv (insertPM m k v) j = if j = k then some v else getv m j := by
  unfold insertPM
  split
  · rename_i h
    rw [getv_map_replace]
    by_cases hjk : j = k
    · obtain ⟨w, hw⟩ := exists_getv_of_containsKey m k h
      rw [hjk]
      simp [hw]
    · simp [hjk]
  · rename_i h
    rw [getv_append]
    by_cases hjk : j = k
    · subst hjk
      rw [getv_eq_none_of_not_containsKey m j h]
      simp [getv]
    · cases hg : getv m j with
      | none => simp [hg, getv, hjk, Ne.symm hjk]
      | some w => simp [hg, hjk]

/-! ## An induction principle for task forests -/

lemma Task.sizeOf_subtasks_lt (t : Task) : sizeOf t.subtasks < sizeOf t := by
  cases t with
  | mk i d tg cx c subs => simp [Task.subtasks]

theorem forestInd (P : PMap Task → Prop) (hnil : P [])
    (hcons : ∀ (k : Nat) (t : Task) (tl : PMap Task),
      P t.subtasks → P tl → P ((k, t) :: tl)) :
    ∀ l : PMap Task, P l := by
  have key : ∀ n (l : PMap Task), sizeOf l ≤ n → P l := by
    intro n
    induction n with
    | zero =>
        intro l hl
        exfalso
        cases l with
        | nil => simp at hl
        | cons e tl =>
            have hsz : sizeOf (e :: tl) = 1 + sizeOf e + sizeOf tl := by simp
            omega
    | succ n ih =>
        intro l hl
        cases l with
        | nil => exact hnil
        | cons e tl =>
            obtain ⟨k, t⟩ := e
            have hlt := Task.sizeOf_subtasks_lt t
            have hsz : sizeOf ((k, t) :: tl) =
                1 + (1 + sizeOf k + sizeOf t) + sizeOf tl := by simp
            exact hcons k t tl (ih _ (by omega)) (ih _ (by omega))
  intro l
  exact key (sizeOf l) l le_rfl

/-! ## C4: the bounded history manager -/

lemma pushFoldAux (L : List (Model × Message)) : ∀ (h : History),
    h.undoStack.length + L.length ≤ h.maxHistory →
    (L.foldl (fun h e => h.push e.1 e.2) h).undoStack = h.undoStack ++ L ∧
    (L.foldl (fun h e => h.push e.1 e.2) h).maxHistory = h.maxHistory := by
  induction L with
  | nil => simp
  | cons e tl ih =>
      intro h hle
      simp only [List.length_cons] at hle
      have hne : ¬ (h.undoStack.length = h.maxHistory) := by omega
      have hpush : (h.push e.1 e.2).undoStack = h.undoStack ++ [e] := by
        simp [History.push, hne]
      have hmax : (h.push e.1 e.2).maxHistory = h.maxHistory := by
        simp [History.push]
      simp only [List.foldl_cons]
      obtain ⟨ih1, ih2⟩ := ih (h.push e.1 e.2)
        (by rw [hpush, hmax]; simp; omega)
      refine ⟨?_, by rw [ih2, hmax]⟩
      rw [ih1, hpush]
      simp

/-- C4 (amended: the capacity corollary requires `1 ≤ N`; see the
counterexample at capacity 0): `push` evicts the oldest undo entry exactly
when the stack holds `maxHistory` entries, appends the new pair, and clears
the redo stack; `undo` on an empty stack reports nothing and changes
nothing; `undo` on a nonempty stack pops the newest entry, pushes the live
snapshot paired with that entry's action onto the redo stack, and returns
the popped snapshot; an undo followed by a push leaves the redo stack empty;
and pushing `N + 1` entries into an empty capacity-`N ≥ 1` history retains
exactly the last `N`, evicting the oldest. -/
theorem c4_history_push_undo :
    (∀ (h : History) (m : Model) (a : Message),
        (h.push m a).undoStack =
          (if h.undoStack.length = h.maxHistory then h.undoStack.tail
           else h.undoStack) ++ [(m, a)] ∧
        (h.push m a).redoStack = [] ∧
        (h.push m a).maxHistory = h.maxHistory) ∧
    (∀ (h : History) (live : Model), h.undoStack = [] →
        (h.undoOp live).1 = none ∧ (h.undoOp live).2 = h) ∧
    (∀ (h : History) (live prev : Model) (a : Message)
        (rest : List (Model × Message)), h.undoStack = rest ++ [(prev, a)] →
        (h.undoOp live).1 = some prev ∧
        (h.undoOp live).2.undoStack = rest ∧
        (h.undoOp live).2.redoStack = h.redoStack ++ [(live, a)]) ∧
    (∀ (h : History) (live m : Model) (a : Message),
        (((h.undoOp live).2).push m a).redoStack = []) ∧
    (∀ (N : Nat) (L : List (Model × Message)), 1 ≤ N → L.length = N + 1 →
        (L.foldl (fun h e => h.push e.1 e.2) (History.new N)).undoStack =
          L.tail) := by
  refine ⟨?_, ?_, ?_, ?_, ?_⟩
  · intro h m a
    refine ⟨?_, rfl, rfl⟩
    simp [History.push]
  · intro h live he
    simp [History.undoOp, he]
  · intro h live prev a rest he
    simp [History.undoOp, he, List.getLast?_concat, List.dropLast_concat]
  · intro h live m a
    rfl
  · intro N L hN hL
    rcases List.eq_nil_or_concat L with rfl | ⟨M, z, rfl⟩
    · simp at hL
    · simp only [List.concat_eq_append] at hL ⊢
      have hlen : M.length = N := by
        simp at hL
        omega
      rw [List.foldl_append]
      obtain ⟨h1, h2⟩ := pushFoldAux M (History.new N)
        (by simp [History.new, hlen])
      have hcap : ((M.foldl (fun h e => h.push e.1 e.2)
          (History.new N)).undoStack.length =
            (M.foldl (fun h e => h.push e.1 e.2) (History.new N)).maxHistory) := by
        rw [h1, h2]
        simp [History.new, hlen]
      simp only [List.foldl_cons, List.foldl_nil]
      rw [show ∀ (h : History) (e : Model × Message),
            (h.push e.1 e.2).undoStack =
              (if h.undoStack.length = h.maxHistory then h.undoStack.tail
               else h.undoStack) ++ [e] from by intro h e; simp [History.push]]
      rw [if_pos hcap, h1]
      cases M with
      | nil => simp at hlen; omega
      | cons a t => simp [History.new]

/-- C4 counterexample: with capacity 0, pushing `N + 1 = 1` entry retains 1
entry, not `N = 0` — the eviction of an empty stack removes nothing, so a
capacity-0 history grows past its capacity. -/
theorem c4_capacity_counterexample :
    ((History.new 0).push (Model.new 0) Message.undo).undoStack.length = 1 ∧
    ¬ (((History.new 0).push (Model.new 0) Message.undo).undoStack.length
        = 0) := by
  constructor
  · simp [History.push, History.new]
  · simp [History.push, History.new]

/-- C4 witness: the amended theorem applied at capacity 1 with two pushes,
and at concrete undo scenarios. -/
theorem c4_history_push_undo_witness :
    (([(Model.new 0, Message.undo), (Model.new 1, Message.redo)].foldl
        (fun h e => h.push e.1 e.2) (History.new 1)).undoStack =
      [(Model.new 1, Message.redo)]) ∧
    ((History.new 1).undoOp (Model.new 0)).1 = none ∧
    (((History.new 1).push (Model.new 5) Message.undo).undoOp
        (Model.new 9)).1 = some (Model.new 5) := by
  refine ⟨?_, ?_, ?_⟩
  · have := c4_history_push_undo.2.2.2.2 1
      [(Model.new 0, Message.undo), (Model.new 1, Message.redo)]
      (by decide) (by decide)
    simpa using this
  · exact (c4_history_push_undo.2.1 (History.new 1) (Model.new 0) rfl).1
  · refine (c4_history_push_undo.2.2.1
      ((History.new 1).push (Model.new 5) Message.undo)
      (Model.new 9) (Model.new 5) Message.undo [] ?_).1
    simp [History.push, History.new]

/-! ## C9: text-match evaluation is raw substring containment -/

/-- C9: the text-match condition evaluates true exactly when the quoted
literal occurs in the task's raw description as a contiguous substring, with
no case normalisation on either side. -/
theorem c9_text_match_case_sensitive :
    (∀ (p : String) (t : Task),
        Condition.evaluate (Condition.text p) t = true ↔
          ∃ l r : List Char, t.description.data = l ++ p.data ++ r) ∧
    Condition.evaluate (Condition.text "task")
      (Task.mk 1 "Task one" [] [] false []) = false ∧
    Condition.evaluate (Condition.text "Task")
      (Task.mk 1 "Task one" [] [] false []) = true := by
  refine ⟨?_, ?_, ?_⟩
  · intro p t
    simp only [Condition.evaluate, strContains, decide_eq_true_eq]
    constructor
    · rintro ⟨l, r, hl⟩
      exact ⟨l, r, hl.symm⟩
    · rintro ⟨l, r, hl⟩
      exact ⟨l, r, hl.symm⟩
  · decide
  · decide

/-! ## C7: tag and context identifier character set -/

lemma parseTag_full (s : List Char) (hne : s ≠ [])
    (hall : ∀ c ∈ s, isTagIdentChar c = true) :
    parseTag ('#' :: s) = some ([], Token.tagTok (String.mk s)) := by
  have ht : s.takeWhile isTagIdentChar = s :=
    List.takeWhile_eq_self_iff.mpr hall
  have hd : s.dropWhile isTagIdentChar = [] :=
    List.dropWhile_eq_nil_iff.mpr hall
  simp [parseTag, takeWhile1, ht, hd, hne]

lemma parseContext_full (s : List Char) (hne : s ≠ [])
    (hall : ∀ c ∈ s, isTagIdentChar c = true) :
    parseContext ('@' :: s) = some ([], Token.contextTok (String.mk s)) := by
  have ht : s.takeWhile isTagIdentChar = s :=
    List.takeWhile_eq_self_iff.mpr hall
  have hd : s.dropWhile isTagIdentChar = [] :=
    List.dropWhile_eq_nil_iff.mpr hall
  simp [parseContext, takeWhile1, ht, hd, hne]

lemma exprTail_stop (fl : Nat) (acc : Condition) :
    exprTail fl acc [] = some ([], acc) := by
  rw [exprTail.eq_def]
  simp [parseOrOp, tagNoCase, multispace0]

lemma termTail_stop (fl : Nat) (acc : Condition) :
    termTail fl acc [] = some ([], acc) := by
  rw [termTail.eq_def]
  simp [parseAndOp, tagNoCase, multispace0]

/-- Full-grammar evaluation of a single sentinel-prefixed identifier: the
sentinel (`#` or `@`) rejects the `not`, parenthesis, and marker branches,
so `operand` lands on the corresponding leaf condition. -/
lemma expressionP_single_leaf (fl : Nat) (hfl : ¬ fl = 0) (hd : Char)
    (s : List Char) (c : Condition)
    (hnotn : ¬ hd.toLower = 'n')
    (hnp : (hd == '(' || hd == ')') = false)
    (hnb : ¬ hd = '[')
    (leaf : altO (completedCondition (hd :: s))
        (altO (incompleteCondition (hd :: s))
          (altO (tagCondition (hd :: s))
            (altO (contextCondition (hd :: s)) (textCondition (hd :: s))))) =
        some ([], c)) :
    expressionP fl (hd :: s) = some ([], c) := by
  have hop : operandP fl (hd :: s) = some ([], c) := by
    rw [operandP.eq_def]
    simp only [hfl, if_false]
    have hpp : parseParen (hd :: s) = none := by
      simp [parseParen, hnp]
    rw [hpp]
    exact leaf
  have hfac : factorP fl (hd :: s) = some ([], c) := by
    rw [factorP.eq_def]
    have hlow : 'n'.toLower = 'n' := by decide
    have hnot : parseNotOp (hd :: s) = none := by
      simp [parseNotOp, tagNoCase, hlow, hnotn]
    simp [hfl, hnot, hop]
  have hterm : termP fl (hd :: s) = some ([], c) := by
    rw [termP.eq_def]
    simp [hfl, hfac, termTail_stop]
  rw [expressionP.eq_def]
  simp [hfl, hterm, exprTail_stop]

/-- C7 counterexample: `.` is not accepted in tag/context identifiers: for
the identifier `a.b` (made only of letters, digits and `.`), `#a.b` parses
as the tag `a` leaving `.b` unconsumed, and the whole filter text `#a.b`
is a parse error rather than a tag-match on `a.b`. -/
theorem c7_identifier_charset_counterexample :
    parseTag ['#', 'a', '.', 'b'] = some (['.', 'b'], Token.tagTok "a") ∧
    parseTag ['#', 'a', '.', 'b'] ≠ some ([], Token.tagTok "a.b") ∧
    parseContext ['@', 'a', '.', 'b'] =
      some (['.', 'b'], Token.contextTok "a") ∧
    parseFilterExpression ['#', 'a', '.', 'b'] =
      .error "Parsing error: unconsumed input" := by
  refine ⟨by decide, by decide, by decide, ?_⟩
  simp [parseFilterExpression, expressionP, termP, factorP, operandP,
    exprTail, termTail, parseNotOp, parseOrOp, parseAndOp, tagNoCase,
    parseParen, parseTag, parseContext, parseQuotedText, parseCompleted,
    parseIncomplete, takeWhile1, isTagIdentChar, altO, tagCondition,
    contextCondition, textCondition, completedCondition, incompleteCondition,
    multispace0, trimMatchesQuote]

/-- C7 (amended: the identifier character set is letters, digits, `_` and
`-` — not `.`, which only the dead helper `identifier` accepts): every
nonempty identifier over that set parses, whole, as a tag or context
reference, both at the token level and through the full filter grammar. -/
theorem c7_tag_context_identifiers (s : List Char) (hne : s ≠ [])
    (hall : ∀ c ∈ s, isTagIdentChar c = true) :
    parseTag ('#' :: s) = some ([], Token.tagTok (String.mk s)) ∧
    parseContext ('@' :: s) = some ([], Token.contextTok (String.mk s)) ∧
    tagCondition ('#' :: s) = some ([], Condition.tag (String.mk s)) ∧
    contextCondition ('@' :: s) =
      some ([], Condition.context (String.mk s)) ∧
    parseFilterExpression ('#' :: s) =
      .ok (Condition.tag (String.mk s)) ∧
    parseFilterExpression ('@' :: s) =
      .ok (Condition.context (String.mk s)) := by
  have hpt := parseTag_full s hne hall
  have hpc := parseContext_full s hne hall
  have htc : tagCondition ('#' :: s) =
      some ([], Condition.tag (String.mk s)) := by
    simp [tagCondition, hpt]
  have hcc : contextCondition ('@' :: s) =
      some ([], Condition.context (String.mk s)) := by
    simp [contextCondition, hpc]
  refine ⟨hpt, hpc, htc, hcc, ?_, ?_⟩
  · have hleaf : altO (completedCondition ('#' :: s))
        (altO (incompleteCondition ('#' :: s))
          (altO (tagCondition ('#' :: s))
            (altO (contextCondition ('#' :: s))
              (textCondition ('#' :: s))))) =
        some ([], Condition.tag (String.mk s)) := by
      simp [altO, completedCondition, incompleteCondition, parseCompleted,
        parseIncomplete, htc]
    have he := expressionP_single_leaf (s.length + 1 + 1) (by simp)
      '#' s (Condition.tag (String.mk s)) (by decide) (by decide)
      (by decide) hleaf
    simp [parseFilterExpression, he]
  · have hleaf : altO (completedCondition ('@' :: s))
        (altO (incompleteCondition ('@' :: s))
          (altO (tagCondition ('@' :: s))
            (altO (contextCondition ('@' :: s))
              (textCondition ('@' :: s))))) =
        some ([], Condition.context (String.mk s)) := by
      simp [altO, completedCondition, incompleteCondition, parseCompleted,
        parseIncomplete, tagCondition, parseTag, hcc]
    have he := expressionP_single_leaf (s.length + 1 + 1) (by simp)
      '@' s (Condition.context (String.mk s)) (by decide) (by decide)
      (by decide) hleaf
    simp [parseFilterExpression, he]

/-- C7 witness: the amended theorem at the concrete identifier `work`. -/
theorem c7_tag_context_identifiers_witness :
    parseTag ['#', 'w', 'o', 'r', 'k'] =
      some ([], Token.tagTok (String.mk ['w', 'o', 'r', 'k'])) ∧
    parseFilterExpression ['#', 'w', 'o', 'r', 'k'] =
      .ok (Condition.tag (String.mk ['w', 'o', 'r', 'k'])) := by
  have h := c7_tag_context_identifiers ['w', 'o', 'r', 'k'] (by decide)
    (by decide)
  exact ⟨h.1, h.2.2.2.2.1⟩

/-! ## C10: quoted text literals do not require a closing quote -/

lemma dropWhile_quote_eq_self (s : List Char) (hq : ∀ c ∈ s, ¬ c = '"') :
    s.dropWhile (· == '"') = s := by
  cases s with
  | nil => simp
  | cons a tl => simp [List.dropWhile_cons, hq a (by simp)]

lemma takeWhile_notQuote_append (s : List Char) (hq : ∀ c ∈ s, ¬ c = '"') :
    (s ++ ['"']).takeWhile (fun c => !(c == '"')) = s ∧
    (s ++ ['"']).dropWhile (fun c => !(c == '"')) = ['"'] := by
  induction s with
  | nil => simp
  | cons a tl ih =>
      have ha : ¬ a = '"' := hq a (by simp)
      have ih' := ih (fun c hc => hq c (by simp [hc]))
      simp [List.takeWhile_cons, List.dropWhile_cons, ha, ih'.1, ih'.2]

lemma trimMatchesQuote_open (s : List Char) (hq : ∀ c ∈ s, ¬ c = '"') :
    trimMatchesQuote ('"' :: s) = s := by
  have hrev : ∀ c ∈ s.reverse, ¬ c = '"' := by
    intro c hc
    exact hq c (List.mem_reverse.mp hc)
  simp [trimMatchesQuote, List.dropWhile_cons,
    dropWhile_quote_eq_self s hq, dropWhile_quote_eq_self s.reverse hrev]

lemma trimMatchesQuote_closed (s : List Char) (hne : s ≠ [])
    (hq : ∀ c ∈ s, ¬ c = '"') :
    trimMatchesQuote ('"' :: (s ++ ['"'])) = s := by
  have hds : (s ++ ['"']).dropWhile (· == '"') = s ++ ['"'] := by
    cases s with
    | nil => exact absurd rfl hne
    | cons a tl => simp [List.dropWhile_cons, hq a (by simp)]
  have hrev : ∀ c ∈ s.reverse, ¬ c = '"' := by
    intro c hc
    exact hq c (List.mem_reverse.mp hc)
  simp [trimMatchesQuote, List.dropWhile_cons, hds,
    List.reverse_append, dropWhile_quote_eq_self s.reverse hrev]

lemma parseQuotedText_open (s : List Char) (hne : s ≠ [])
    (hq : ∀ c ∈ s, ¬ c = '"') :
    parseQuotedText ('"' :: s) = some ([], Token.quotedText ('"' :: s)) := by
  have ht : s.takeWhile (fun c => !(c == '"')) = s :=
    List.takeWhile_eq_self_iff.mpr (by simpa using hq)
  have hd : s.dropWhile (fun c => !(c == '"')) = [] :=
    List.dropWhile_eq_nil_iff.mpr (by simpa using hq)
  simp [parseQuotedText, takeWhile1, ht, hd, hne]

lemma parseQuotedText_closed (s : List Char) (hne : s ≠ [])
    (hq : ∀ c ∈ s, ¬ c = '"') :
    parseQuotedText ('"' :: (s ++ ['"'])) =
      some ([], Token.quotedText ('"' :: (s ++ ['"']))) := by
  obtain ⟨ht, hd⟩ := takeWhile_notQuote_append s hq
  have hpre : ¬ (s ++ ['"']).takeWhile (fun c => !(c == '"')) = [] := by
    rw [ht]
    exact hne
  simp [parseQuotedText, takeWhile1, ht, hd, List.isEmpty_iff, hpre, hne]

/-- C10: a quoted literal needs no closing quote — `"` followed by one or
more non-quote characters parses as a text-match condition on exactly those
characters, at the token level, at the `text_condition` level, and through
the whole filter grammar; a closing quote, when present, is consumed and
stripped, producing the same condition. -/
theorem c10_unclosed_quote (s : List Char) (hne : s ≠ [])
    (hq : ∀ c ∈ s, ¬ c = '"') :
    parseQuotedText ('"' :: s) = some ([], Token.quotedText ('"' :: s)) ∧
    textCondition ('"' :: s) = some ([], Condition.text (String.mk s)) ∧
    parseFilterExpression ('"' :: s) = .ok (Condition.text (String.mk s)) ∧
    parseQuotedText ('"' :: (s ++ ['"'])) =
      some ([], Token.quotedText ('"' :: (s ++ ['"']))) ∧
    textCondition ('"' :: (s ++ ['"'])) =
      some ([], Condition.text (String.mk s)) ∧
    parseFilterExpression ('"' :: (s ++ ['"'])) =
      .ok (Condition.text (String.mk s)) := by
  have hpo := parseQuotedText_open s hne hq
  have hpc := parseQuotedText_closed s hne hq
  have htco : textCondition ('"' :: s) =
      some ([], Condition.text (String.mk s)) := by
    simp [textCondition, hpo, trimMatchesQuote_open s hq]
  have htcc : textCondition ('"' :: (s ++ ['"'])) =
      some ([], Condition.text (String.mk s)) := by
    simp [textCondition, hpc, trimMatchesQuote_closed s hne hq]
  have hleafo : altO (completedCondition ('"' :: s))
      (altO (incompleteCondition ('"' :: s))
        (altO (tagCondition ('"' :: s))
          (altO (contextCondition ('"' :: s)) (textCondition ('"' :: s))))) =
      some ([], Condition.text (String.mk s)) := by
    simp [altO, completedCondition, incompleteCondition, parseCompleted,
      parseIncomplete, tagCondition, parseTag, contextCondition,
      parseContext, htco]
  have hleafc : altO (completedCondition ('"' :: (s ++ ['"'])))
      (altO (incompleteCondition ('"' :: (s ++ ['"'])))
        (altO (tagCondition ('"' :: (s ++ ['"'])))
          (altO (contextCondition ('"' :: (s ++ ['"'])))
            (textCondition ('"' :: (s ++ ['"'])))))) =
      some ([], Condition.text (String.mk s)) := by
    simp [altO, completedCondition, incompleteCondition, parseCompleted,
      parseIncomplete, tagCondition, parseTag, contextCondition,
      parseContext, htcc]
  have heo := expressionP_single_leaf (s.length + 1 + 1) (by simp)
    '"' s (Condition.text (String.mk s)) (by decide) (by decide)
    (by decide) hleafo
  have hec := expressionP_single_leaf ((s ++ ['"']).length + 1 + 1) (by simp)
    '"' (s ++ ['"']) (Condition.text (String.mk s)) (by decide) (by decide)
    (by decide) hleafc
  refine ⟨hpo, htco, ?_, hpc, htcc, ?_⟩
  · simp [parseFilterExpression, heo]
  · have hec' : expressionP (s.length + 1 + 1 + 1) ('"' :: (s ++ ['"'])) =
        some ([], Condition.text (String.mk s)) := by
      have : (s ++ ['"']).length + 1 + 1 = s.length + 1 + 1 + 1 := by
        simp
      rw [this] at hec
      exact hec
    simp [parseFilterExpression, hec']

/-- C10 witness: the theorem at the concrete literal `hi`, unclosed and
closed. -/
theorem c10_unclosed_quote_witness :
    parseFilterExpression ['"', 'h', 'i'] =
      .ok (Condition.text (String.mk ['h', 'i'])) ∧
    parseFilterExpression ['"', 'h', 'i', '"'] =
      .ok (Condition.text (String.mk ['h', 'i'])) := by
  have h := c10_unclosed_quote ['h', 'i'] (by decide) (by decide)
  exact ⟨h.2.2.1, h.2.2.2.2.2⟩

/-! ## C2: flip completion and recompute ancestors -/

lemma withFlipCompleted_completed (t : Task) :
    (withFlipCompleted t).completed = !t.completed := by
  cases t with
  | mk i d tg cx c subs => simp [withFlipCompleted, Task.completed]

lemma getv_flipSubs (l : PMap Task) (k : Nat) :
    getv (withFlipCompleted.flipSubs l) k =
      (getv l k).map withFlipCompleted := by
  induction l with
  | nil => simp [withFlipCompleted.flipSubs, getv]
  | cons e tl ih =>
      obtain ⟨a, t⟩ := e
      by_cases hak : a = k
      · simp [withFlipCompleted.flipSubs, getv, hak]
      · simp [withFlipCompleted.flipSubs, getv, hak, ih]

lemma taskAt_flipSubs (q : List Nat) : ∀ l : PMap Task,
    taskAt (withFlipCompleted.flipSubs l) q =
      (taskAt l q).map withFlipCompleted := by
  induction q with
  | nil => intro l; simp [taskAt]
  | cons k rest ih =>
      intro l
      simp only [taskAt]
      rw [getv_flipSubs]
      cases hg : getv l k with
      | none => simp
      | some t =>
          by_cases hr : rest.isEmpty
          · simp [hr]
          · cases t with
            | mk i d tg cx c subs =>
                simp [hr, withFlipCompleted, Task.subtasks, ih]

lemma taskAt_withFlipCompleted_subtasks (t : Task) (q : List Nat) :
    taskAt (withFlipCompleted t).subtasks q =
      (taskAt t.subtasks q).map withFlipCompleted := by
  cases t with
  | mk i d tg cx c subs =>
      simpa [withFlipCompleted, Task.subtasks] using taskAt_flipSubs q subs

lemma flipTaskAndUpdateParents_ok : ∀ (path : List Nat) (tasks : PMap Task)
    (t : Task), taskAt tasks path = some t →
    ∃ out, flipTaskAndUpdateParents tasks path = .ok out ∧
      taskAt out path = some (withFlipCompleted t) ∧
      ∀ q, q ≠ [] → q <+: path → q ≠ path →
        ∃ a, taskAt out q = some a ∧
          a.completed = a.subtasks.all (fun e => e.2.completed) := by
  intro path
  induction path with
  | nil =>
      intro tasks t h
      simp [taskAt] at h
  | cons k rest ih =>
      intro tasks t h
      simp only [taskAt] at h
      cases hg : getv tasks k with
      | none => rw [hg] at h; simp at h
      | some cur =>
          rw [hg] at h
          by_cases hr : rest = []
          · subst hr
            simp only [List.isEmpty_nil, if_pos] at h
            have hct : cur = t := by
              simpa using h
            subst hct
            refine ⟨insertPM tasks k (withFlipCompleted cur), ?_, ?_, ?_⟩
            · simp [flipTaskAndUpdateParents, hg]
            · simp [taskAt, getv_insertPM]
            · intro q hq hpre hqne
              exfalso
              obtain ⟨r, hrapp⟩ := hpre
              cases q with
              | nil => exact hq rfl
              | cons q0 q' =>
                  simp only [List.cons_append, List.cons.injEq] at hrapp
                  obtain ⟨rfl, happ⟩ := hrapp
                  have : q' = [] := by
                    cases q' with
                    | nil => rfl
                    | cons x xs => simp at happ
                  subst this
                  exact hqne rfl
          · have hrne : rest.isEmpty = false := by
              simp [hr]
            rw [hrne] at h
            simp only [Bool.false_eq_true, if_false] at h
            obtain ⟨out', hout', htgt', hanc'⟩ := ih cur.subtasks t h
            refine ⟨insertPM tasks k
              (Task.mk cur.id cur.description cur.tags cur.contexts
                (out'.all fun e => e.2.completed) out'), ?_, ?_, ?_⟩
            · simp [flipTaskAndUpdateParents, hg, hrne, hout']
            · simp [taskAt, getv_insertPM, hrne, Task.subtasks, htgt']
            · intro q hq hpre hqne
              obtain ⟨r, hrapp⟩ := hpre
              cases q with
              | nil => exact absurd rfl hq
              | cons q0 q' =>
                  simp only [List.cons_append, List.cons.injEq] at hrapp
                  obtain ⟨rfl, happ⟩ := hrapp
                  by_cases hq' : q' = []
                  · subst hq'
                    refine ⟨Task.mk cur.id cur.description cur.tags
                      cur.contexts (out'.all fun e => e.2.completed) out',
                      ?_, ?_⟩
                    · simp [taskAt, getv_insertPM]
                    · simp [Task.completed, Task.subtasks]
                  · have hq'pre : q' <+: rest := ⟨r, happ⟩
                    have hq'ne : q' ≠ rest := by
                      intro hcontra
                      exact hqne (by rw [hcontra])
                    obtain ⟨a, ha, hacomp⟩ := hanc' q' hq' hq'pre hq'ne
                    refine ⟨a, ?_, hacomp⟩
                    have hq'empty : q'.isEmpty = false := by
                      simp [hq']
                    simp [taskAt, getv_insertPM, hq'empty, Task.subtasks, ha]

/-- C2 (amended: when the target is flipped, every descendant's completion is
*toggled* from its prior state — not set to completed — so a target that
becomes completed leaves a previously completed descendant incomplete; the
ancestor recomputation is as claimed): flipping at a resolving path toggles
the target together with each of its descendants, and every proper ancestor
along the path is recomputed as completed exactly when all of its current
children are completed. -/
theorem c2_flip_completion :
    (∀ t : Task, (withFlipCompleted t).completed = !t.completed) ∧
    (∀ (t : Task) (q : List Nat),
        taskAt (withFlipCompleted t).subtasks q =
          (taskAt t.subtasks q).map withFlipCompleted) ∧
    (∀ (tasks : PMap Task) (path : List Nat) (t : Task),
        taskAt tasks path = some t →
        ∃ out, flipTaskAndUpdateParents tasks path = .ok out ∧
          taskAt out path = some (withFlipCompleted t) ∧
          ∀ q, q ≠ [] → q <+: path → q ≠ path →
            ∃ a, taskAt out q = some a ∧
              a.completed = a.subtasks.all (fun e => e.2.completed)) :=
  ⟨withFlipCompleted_completed, taskAt_withFlipCompleted_subtasks,
   fun tasks path t h => flipTaskAndUpdateParents_ok path tasks t h⟩

/-- C2 counterexample: flipping an incomplete parent whose only child is
already completed makes the parent completed but the child *incomplete*,
refuting "if the target becomes completed, every descendant is also marked
completed (whatever its prior state)". -/
theorem c2_flip_descendant_counterexample :
    ((flipTaskAndUpdateParents
        [(1, Task.mk 1 "p" [] [] false [(2, Task.mk 2 "c" [] [] true [])])]
        [1]).toOption.bind
      (fun out => (taskAt out [1]).map Task.completed)) = some true ∧
    ((flipTaskAndUpdateParents
        [(1, Task.mk 1 "p" [] [] false [(2, Task.mk 2 "c" [] [] true [])])]
        [1]).toOption.bind
      (fun out => (taskAt out [1, 2]).map Task.completed)) = some false := by
  constructor
  · simp [flipTaskAndUpdateParents, withFlipCompleted,
      withFlipCompleted.flipSubs, insertPM, containsKey, taskAt, getv,
      Task.completed, Task.subtasks, Except.toOption]
  · simp [flipTaskAndUpdateParents, withFlipCompleted,
      withFlipCompleted.flipSubs, insertPM, containsKey, taskAt, getv,
      Task.completed, Task.subtasks, Except.toOption]

/-- C2 witness: the amended theorem applied to a two-level concrete tree. -/
theorem c2_flip_completion_witness :
    (flipTaskAndUpdateParents
        [(1, Task.mk 1 "p" [] [] false [(2, Task.mk 2 "c" [] [] false [])])]
        [1, 2]).isOk = true := by
  obtain ⟨out, hout, -, -⟩ := c2_flip_completion.2.2
    [(1, Task.mk 1 "p" [] [] false [(2, Task.mk 2 "c" [] [] false [])])]
    [1, 2] (Task.mk 2 "c" [] [] false [])
    (by simp [taskAt, getv, Task.subtasks])
  simp [hout, Except.isOk, Except.toBool]

/-! ## C5: insert a child and uncomplete every ancestor on the path -/

/-- The first id on the path that fails to resolve during the walk of
`insert_task_and_uncomplete_parents` (and of the other path operations). -/
def firstMissingId : PMap Task → List Nat → Option Nat
  | _, [] => none
  | ts, k :: rest =>
      match getv ts k with
      | none => some k
      | some t => firstMissingId t.subtasks rest

lemma insertTaskAndUncompleteParents_ok : ∀ (path : List Nat)
    (tasks : PMap Task) (t task : Task), taskAt tasks path = some t →
    ∃ out, insertTaskAndUncompleteParents tasks path task = .ok out ∧
      taskAt out (path ++ [task.id]) = some task ∧
      ∀ q, q ≠ [] → q <+: path →
        ∃ a b, taskAt tasks q = some a ∧ taskAt out q = some b ∧
          b.completed = false ∧ b.id = a.id ∧
          b.description = a.description ∧ b.tags = a.tags ∧
          b.contexts = a.contexts := by
  intro path
  induction path with
  | nil =>
      intro tasks t task h
      simp [taskAt] at h
  | cons k rest ih =>
      intro tasks t task h
      simp only [taskAt] at h
      cases hg : getv tasks k with
      | none => rw [hg] at h; simp at h
      | some cur =>
          rw [hg] at h
          by_cases hr : rest = []
          · subst hr
            simp only [List.isEmpty_nil, if_pos] at h
            have hct : cur = t := by simpa using h
            refine ⟨insertPM tasks k
              (Task.mk cur.id cur.description cur.tags cur.contexts false
                (insertPM cur.subtasks task.id task)), ?_, ?_, ?_⟩
            · simp [insertTaskAndUncompleteParents, hg]
            · simp [taskAt, getv_insertPM, Task.subtasks]
            · intro q hq hpre
              obtain ⟨r, hrapp⟩ := hpre
              cases q with
              | nil => exact absurd rfl hq
              | cons q0 q' =>
                  simp only [List.cons_append, List.cons.injEq] at hrapp
                  obtain ⟨rfl, happ⟩ := hrapp
                  have hq' : q' = [] := by
                    cases q' with
                    | nil => rfl
                    | cons x xs => simp at happ
                  subst hq'
                  exact ⟨cur, Task.mk cur.id cur.description cur.tags
                    cur.contexts false (insertPM cur.subtasks task.id task),
                    by simp [taskAt, hg],
                    by simp [taskAt, getv_insertPM],
                    by simp [Task.completed], by simp [Task.id],
                    by simp [Task.description], by simp [Task.tags],
                    by simp [Task.contexts]⟩
          · have hrne : rest.isEmpty = false := by simp [hr]
            rw [hrne] at h
            simp only [Bool.false_eq_true, if_false] at h
            obtain ⟨out', hout', htgt', hanc'⟩ := ih cur.subtasks t task h
            refine ⟨insertPM tasks k
              (Task.mk cur.id cur.description cur.tags cur.contexts false
                out'), ?_, ?_, ?_⟩
            · simp [insertTaskAndUncompleteParents, hg, hout']
            · have hne2 : (rest ++ [task.id]).isEmpty = false := by
                simp
              simp [taskAt, getv_insertPM, hne2, Task.subtasks, htgt']
            · intro q hq hpre
              obtain ⟨r, hrapp⟩ := hpre
              cases q with
              | nil => exact absurd rfl hq
              | cons q0 q' =>
                  simp only [List.cons_append, List.cons.injEq] at hrapp
                  obtain ⟨rfl, happ⟩ := hrapp
                  by_cases hq' : q' = []
                  · subst hq'
                    exact ⟨cur, Task.mk cur.id cur.description cur.tags
                      cur.contexts false out',
                      by simp [taskAt, hg],
                      by simp [taskAt, getv_insertPM],
                      by simp [Task.completed], by simp [Task.id],
                      by simp [Task.description], by simp [Task.tags],
                      by simp [Task.contexts]⟩
                  · obtain ⟨a, b, ha, hb, hcomp, hid, hdesc, htags, hctx⟩ :=
                      hanc' q' hq' ⟨r, happ⟩
                    have hq'empty : q'.isEmpty = false := by simp [hq']
                    exact ⟨a, b,
                      by simp [taskAt, hg, hq'empty, ha],
                      by simp [taskAt, getv_insertPM, hq'empty,
                        Task.subtasks, hb],
                      hcomp, hid, hdesc, htags, hctx⟩

lemma insertTaskAndUncompleteParents_missing : ∀ (path : List Nat)
    (tasks : PMap Task) (task : Task), path ≠ [] →
    taskAt tasks path = none →
    ∃ m, firstMissingId tasks path = some m ∧
      insertTaskAndUncompleteParents tasks path task =
        .error s!"Task with ID {m} not found" := by
  intro path
  induction path with
  | nil => intro tasks task hne h; exact absurd rfl hne
  | cons k rest ih =>
      intro tasks task hne h
      simp only [taskAt] at h
      cases hg : getv tasks k with
      | none =>
          exact ⟨k, by simp [firstMissingId, hg],
            by simp [insertTaskAndUncompleteParents, hg]⟩
      | some cur =>
          rw [hg] at h
          by_cases hr : rest = []
          · subst hr
            simp at h
          · have hrne : rest.isEmpty = false := by simp [hr]
            rw [hrne] at h
            simp only [Bool.false_eq_true, if_false] at h
            obtain ⟨m, hm, herr⟩ := ih cur.subtasks task hr h
            exact ⟨m, by simp [firstMissingId, hg, hm],
              by simp [insertTaskAndUncompleteParents, hg, herr]⟩

/-- C5: inserting at a resolving path (or the empty path, at the root) adds
the new task as a child of the path's target and clears completion on every
task along the path — previously completed ancestors become incomplete and
previously incomplete ones stay incomplete, with all other fields
preserved; a path with a missing id yields a recoverable error naming the
first missing id and the tree is not returned (nothing is inserted). -/
theorem c5_insert_uncomplete_parents :
    (∀ (tasks : PMap Task) (task : Task),
        insertTaskAndUncompleteParents tasks [] task =
          .ok (insertPM tasks task.id task)) ∧
    (∀ (tasks : PMap Task) (path : List Nat) (t task : Task),
        taskAt tasks path = some t →
        ∃ out, insertTaskAndUncompleteParents tasks path task = .ok out ∧
          taskAt out (path ++ [task.id]) = some task ∧
          ∀ q, q ≠ [] → q <+: path →
            ∃ a b, taskAt tasks q = some a ∧ taskAt out q = some b ∧
              b.completed = false ∧ b.id = a.id ∧
              b.description = a.description ∧ b.tags = a.tags ∧
              b.contexts = a.contexts) ∧
    (∀ (tasks : PMap Task) (path : List Nat) (task : Task), path ≠ [] →
        taskAt tasks path = none →
        ∃ m, firstMissingId tasks path = some m ∧
          insertTaskAndUncompleteParents tasks path task =
            .error s!"Task with ID {m} not found") :=
  ⟨fun tasks task => by simp [insertTaskAndUncompleteParents],
   fun tasks path t task h =>
     insertTaskAndUncompleteParents_ok path tasks t task h,
   fun tasks path task hne h =>
     insertTaskAndUncompleteParents_missing path tasks task hne h⟩

/-- C5 witness: inserting under a task whose ancestors up to the root are
all completed clears completion on every ancestor from the insertion point
to the root (the spec's concrete scenario), and a missing id errors. -/
theorem c5_insert_uncomplete_parents_witness :
    ((insertTaskAndUncompleteParents
        [(1, Task.mk 1 "p" [] [] true [(2, Task.mk 2 "q" [] [] true [])])]
        [1, 2] (Task.mk 3 "n" [] [] false [])).toOption.bind
      (fun out => (taskAt out [1]).map Task.completed)) = some false ∧
    ((insertTaskAndUncompleteParents
        [(1, Task.mk 1 "p" [] [] true [(2, Task.mk 2 "q" [] [] true [])])]
        [1, 2] (Task.mk 3 "n" [] [] false [])).toOption.bind
      (fun out => (taskAt out [1, 2]).map Task.completed)) = some false ∧
    ((insertTaskAndUncompleteParents
        [(1, Task.mk 1 "p" [] [] true [(2, Task.mk 2 "q" [] [] true [])])]
        [1, 2] (Task.mk 3 "n" [] [] false [])).toOption.bind
      (fun out => (taskAt out [1, 2, 3]).map Task.completed)) = some false ∧
    insertTaskAndUncompleteParents
        [(1, Task.mk 1 "p" [] [] true [(2, Task.mk 2 "q" [] [] true [])])]
        [1, 9] (Task.mk 3 "n" [] [] false []) =
      .error "Task with ID 9 not found" := by
  obtain ⟨out, hout, htgt, hanc⟩ := c5_insert_uncomplete_parents.2.1
    [(1, Task.mk 1 "p" [] [] true [(2, Task.mk 2 "q" [] [] true [])])]
    [1, 2] (Task.mk 2 "q" [] [] true []) (Task.mk 3 "n" [] [] false [])
    (by simp [taskAt, getv, Task.subtasks])
  obtain ⟨a1, b1, ha1, hb1, hc1, -, -, -, -⟩ :=
    hanc [1] (by simp) ⟨[2], rfl⟩
  obtain ⟨a2, b2, ha2, hb2, hc2, -, -, -, -⟩ :=
    hanc [1, 2] (by simp) (by exact ⟨[], rfl⟩)
  obtain ⟨m, hm, herr⟩ := c5_insert_uncomplete_parents.2.2
    [(1, Task.mk 1 "p" [] [] true [(2, Task.mk 2 "q" [] [] true [])])]
    [1, 9] (Task.mk 3 "n" [] [] false []) (by simp)
    (by simp [taskAt, getv, Task.subtasks])
  have hm9 : (9 : Nat) = m := by
    simpa [firstMissingId, getv, Task.subtasks] using hm
  refine ⟨?_, ?_, ?_, ?_⟩
  · simp [hout, Except.toOption, hb1, hc1]
  · simp [hout, Except.toOption, hb2, hc2]
  · have h3 : taskAt out [1, 2, 3] = some (Task.mk 3 "n" [] [] false []) := by
      simpa [Task.id] using htgt
    simp [hout, Except.toOption, h3, Task.completed]
  · rw [← hm9] at herr
    exact herr

/-! ## C6: failed operations change only the status message -/

/-- C6: whenever the per-message operation inside `update` fails, the
returned state is the input model with only the status message replaced by
the error — task tree, filter registry, visible-set, selection, mode,
overlay and input buffer are untouched — and the history (both stacks) is
exactly the input history: nothing is pushed and the redo stack is not
cleared; a missing precondition such as adding a child with no selection is
one such failure. -/
theorem c6_failure_is_noop_on_data :
    (∀ (msg : Message) (m : Model) (h : History) (e : String),
        updateStep msg m h = .error e →
        update msg m h = (m.withError e, h)) ∧
    (∀ (m : Model) (e : String),
        (m.withError e).tasks = m.tasks ∧
        (m.withError e).filters = m.filters ∧
        (m.withError e).selectedFilterId = m.selectedFilterId ∧
        (m.withError e).currentFilter = m.currentFilter ∧
        (m.withError e).filteredTasks = m.filteredTasks ∧
        (m.withError e).selectedTask = m.selectedTask ∧
        (m.withError e).mode = m.mode ∧
        (m.withError e).overlay = m.overlay ∧
        (m.withError e).input = m.input ∧
        (m.withError e).cursor = m.cursor ∧
        (m.withError e).message = .error e) ∧
    (∀ (m : Model) (h : History) (task : Task), m.getPath = none →
        updateStep (.addChildTask task) m h =
          .error "Can't insert a child task with no parent task selected") ∧
    (∀ (m : Model) (h : History), h.undoStack = [] →
        updateStep .undo m h = .error "Nothing to undo!") := by
  refine ⟨?_, ?_, ?_, ?_⟩
  · intro msg m h e hstep
    simp [update, hstep]
  · intro m e
    exact ⟨rfl, rfl, rfl, rfl, rfl, rfl, rfl, rfl, rfl, rfl, rfl⟩
  · intro m h task hpath
    simp [updateStep, Model.withChildTask, hpath]
  · intro m h hempty
    simp [updateStep, History.undoOp, hempty]

/-- C6 witness: adding a child task with no selection fails and returns the
input model with only an error message, leaving the history untouched. -/
theorem c6_failure_is_noop_on_data_witness :
    update (.addChildTask (Task.mk 1 "c" [] [] false [])) (Model.new 0)
        (History.new 3) =
      ((Model.new 0).withError
        "Can't insert a child task with no parent task selected",
       History.new 3) ∧
    ((Model.new 0).withError
        "Can't insert a child task with no parent task selected").tasks =
      (Model.new 0).tasks ∧
    update .undo (Model.new 0) (History.new 3) =
      ((Model.new 0).withError "Nothing to undo!", History.new 3) := by
  have hstep := c6_failure_is_noop_on_data.2.2.1 (Model.new 0)
    (History.new 3) (Task.mk 1 "c" [] [] false []) rfl
  have hundo := c6_failure_is_noop_on_data.2.2.2 (Model.new 0)
    (History.new 3) rfl
  exact ⟨c6_failure_is_noop_on_data.1 _ _ _ _ hstep,
    (c6_failure_is_noop_on_data.2.1 (Model.new 0) _).1,
    c6_failure_is_noop_on_data.1 _ _ _ _ hundo⟩

/-! ## C1: the visible-set characterisation

Specification-side notions for the proof: whether a subtree contains a
condition match, which ids are visible inside a subtree, and
well-formedness of a forest (sibling keys are duplicate-free — an invariant
of the Rust `PersistentIndexMap`, whose order vector never holds a key
twice). -/

mutual

def subtreeHasMatch (cond : Condition) (t : Task) : Bool :=
  match t with
  | Task.mk i d tg cx c subs =>
      cond.evaluate (Task.mk i d tg cx c subs) || forestHasMatch cond subs

def forestHasMatch (cond : Condition) : List (Nat × Task) → Bool
  | [] => false
  | (_, t) :: tl => subtreeHasMatch cond t || forestHasMatch cond tl

end

mutual

def visInTask (cond : Condition) (k : Nat) (t : Task) (j : Nat) : Bool :=
  match t with
  | Task.mk i d tg cx c subs =>
      if cond.evaluate (Task.mk i d tg cx c subs) then
        (j == k) || (flattenTasks subs).contains j
      else if forestHasMatch cond subs then
        (j == k) || visInForest cond subs j
      else false

def visInForest (cond : Condition) : List (Nat × Task) → Nat → Bool
  | [], _ => false
  | (k, t) :: tl, j => visInTask cond k t j || visInForest cond tl j

end

mutual

def wfTask : Task → Bool
  | Task.mk _ _ _ _ _ subs => wfForest subs

def wfForest : List (Nat × Task) → Bool
  | [] => true
  | (k, t) :: tl => !(containsKey tl k) && wfTask t && wfForest tl

end

lemma getv_mem {V : Type} (m : PMap V) (k : Nat) (v : V)
    (h : getv m k = some v) : (k, v) ∈ m := by
  induction m with
  | nil => simp [getv] at h
  | cons e tl ih =>
      obtain ⟨a, w⟩ := e
      by_cases hak : a = k
      · subst hak
        simp only [getv, beq_self_eq_true, if_true] at h
        simp only [Option.some.injEq] at h
        subst h
        exact List.mem_cons_self _ _
      · simp only [getv, beq_iff_eq, hak, if_false] at h
        exact List.mem_cons_of_mem _ (ih h)

lemma getv_of_mem_wf (m : PMap Task) (k : Nat) (t : Task)
    (hwf : wfForest m = true) (h : (k, t) ∈ m) : getv m k = some t := by
  induction m with
  | nil => simp at h
  | cons e tl ih =>
      obtain ⟨a, s⟩ := e
      simp only [wfForest, Bool.and_eq_true, Bool.not_eq_true'] at hwf
      rcases List.mem_cons.mp h with h | h
      · simp only [Prod.mk.injEq] at h
        obtain ⟨rfl, rfl⟩ := h
        simp [getv]
      · have hak : ¬ a = k := by
          intro hcontra
          subst hcontra
          have : containsKey tl a = true := by
            rw [containsKey_iff_mem_keys]
            exact List.mem_map.mpr ⟨(a, t), h, rfl⟩
          rw [hwf.1.1] at this
          cases this
        simp only [getv, beq_iff_eq, hak, if_false]
        exact ih hwf.2 h

lemma key_mem_flattenTasks (m : PMap Task) (k : Nat) (t : Task)
    (h : (k, t) ∈ m) : k ∈ flattenTasks m := by
  induction m with
  | nil => simp at h
  | cons e tl ih =>
      obtain ⟨a, s⟩ := e
      cases s with
      | mk i d tg cx c subs =>
          rcases List.mem_cons.mp h with h | h
          · simp only [Prod.mk.injEq] at h
            simp [flattenTasks, h.1]
          · simp [flattenTasks, ih h]

lemma subtree_flatten_subset (m : PMap Task) (k : Nat) (t : Task) (j : Nat)
    (h : (k, t) ∈ m) (hj : j ∈ flattenTasks t.subtasks) :
    j ∈ flattenTasks m := by
  induction m with
  | nil => simp at h
  | cons e tl ih =>
      obtain ⟨a, s⟩ := e
      cases s with
      | mk i d tg cx c subs =>
          rcases List.mem_cons.mp h with h | h
          · simp only [Prod.mk.injEq] at h
            obtain ⟨rfl, rfl⟩ := h
            simp only [Task.subtasks] at hj
            simp [flattenTasks, hj]
          · simp [flattenTasks, ih h]

lemma subtreeHasMatch_of_mem (cond : Condition) (m : PMap Task) (k : Nat)
    (t : Task) (h : (k, t) ∈ m) (hm : subtreeHasMatch cond t = true) :
    forestHasMatch cond m = true := by
  induction m with
  | nil => simp at h
  | cons e tl ih =>
      obtain ⟨a, s⟩ := e
      rcases List.mem_cons.mp h with h | h
      · simp only [Prod.mk.injEq] at h
        obtain ⟨rfl, rfl⟩ := h
        simp [forestHasMatch, hm]
      · simp [forestHasMatch, ih h]

lemma visInForest_false (cond : Condition) (subs : PMap Task) :
    forestHasMatch cond subs = false →
    ∀ j, visInForest cond subs j = false := by
  induction subs using forestInd with
  | hnil => intro _ j; simp [visInForest]
  | hcons k t tl iht ihtl =>
      intro hno j
      simp only [forestHasMatch, Bool.or_eq_false_iff] at hno
      obtain ⟨hnt, hntl⟩ := hno
      cases t with
      | mk i d tg cx c subs' =>
          simp only [subtreeHasMatch, Bool.or_eq_false_iff] at hnt
          simp only [visInForest, Bool.or_eq_false_iff]
          constructor
          · simp [visInTask, hnt.1, hnt.2]
          · exact ihtl hntl j

lemma filterIncludeAllList_keys (subs : PMap Task) :
    ∀ (path : List Nat) (res : VisMap) (j : Nat),
      containsKey (filterIncludeAllList subs path res) j = true ↔
        containsKey res j = true ∨ j ∈ flattenTasks subs := by
  induction subs using forestInd with
  | hnil => intro path res j; simp [filterIncludeAllList, flattenTasks]
  | hcons k t tl iht ihtl =>
      intro path res j
      cases t with
      | mk i d tg cx c subs' =>
          simp only [Task.subtasks] at iht
          rw [show filterIncludeAllList ((k, Task.mk i d tg cx c subs') :: tl)
                path res =
              filterIncludeAllList tl path
                (filterIncludeAllList subs' (path ++ [k])
                  (insertPM res k (path ++ [k]))) from by
            simp [filterIncludeAllList, filterIncludeAll]]
          rw [ihtl, iht, containsKey_insertPM]
          simp only [flattenTasks]
          constructor
          · rintro ((((rfl | hres) | hsub) | htl))
            · simp
            · exact Or.inl hres
            · right
              simp [hsub]
            · right
              simp [htl]
          · rintro (hres | hmem)
            · exact Or.inl (Or.inl (Or.inr hres))
            · simp only [List.cons_append, List.mem_cons, List.mem_append]
                at hmem
              rcases hmem with rfl | hsub | htl
              · exact Or.inl (Or.inl (Or.inl rfl))
              · exact Or.inl (Or.inr hsub)
              · exact Or.inr htl

lemma filterRecList_char (cond : Condition) (subs : PMap Task) :
    ∀ (path : List Nat) (res : VisMap),
      ((filterRecList cond subs path res).2 = forestHasMatch cond subs) ∧
      (∀ j, containsKey (filterRecList cond subs path res).1 j = true ↔
        containsKey res j = true ∨ visInForest cond subs j = true) := by
  induction subs using forestInd with
  | hnil =>
      intro path res
      constructor
      · simp [filterRecList, forestHasMatch]
      · intro j
        simp [filterRecList, visInForest]
  | hcons k t tl iht ihtl =>
      intro path res
      cases t with
      | mk i d tg cx c subs' =>
          simp only [Task.subtasks] at iht
          -- characterise the head call `filterRec … false`
          have hhead : ∀ res',
              ((filterRec cond k (Task.mk i d tg cx c subs') path res'
                  false).2 =
                subtreeHasMatch cond (Task.mk i d tg cx c subs')) ∧
              (∀ j, containsKey
                  (filterRec cond k (Task.mk i d tg cx c subs') path res'
                    false).1 j = true ↔
                containsKey res' j = true ∨
                  visInTask cond k (Task.mk i d tg cx c subs') j = true) := by
            intro res'
            by_cases heval : cond.evaluate (Task.mk i d tg cx c subs') = true
            · have hfr : filterRec cond k (Task.mk i d tg cx c subs') path
                  res' false =
                  (filterIncludeAllList subs' (path ++ [k])
                    (insertPM res' k (path ++ [k])), true) := by
                simp [filterRec, heval]
              rw [hfr]
              constructor
              · simp [subtreeHasMatch, heval]
              · intro j
                simp only
                rw [filterIncludeAllList_keys, containsKey_insertPM]
                simp [visInTask, heval]
                constructor
                · rintro ((rfl | hres) | hsub)
                  · simp
                  · exact Or.inl hres
                  · right
                    right
                    simpa using hsub
                · rintro (hres | rfl | hsub)
                  · exact Or.inl (Or.inr hres)
                  · exact Or.inl (Or.inl rfl)
                  · right
                    simpa using hsub
            · have heval' : cond.evaluate (Task.mk i d tg cx c subs') =
                  false := by
                simp [heval]
              obtain ⟨hflag, hkeys⟩ := iht (path ++ [k]) res'
              by_cases hsm : forestHasMatch cond subs' = true
              · have hfr : filterRec cond k (Task.mk i d tg cx c subs') path
                    res' false =
                    (insertPM (filterRecList cond subs' (path ++ [k])
                        res').1 k (path ++ [k]), true) := by
                  simp [filterRec, heval', hflag, hsm]
                rw [hfr]
                constructor
                · simp [subtreeHasMatch, heval', hsm]
                · intro j
                  simp only
                  rw [containsKey_insertPM, hkeys]
                  simp [visInTask, heval', hsm]
                  tauto
              · have hsm' : forestHasMatch cond subs' = false := by
                  simp [hsm]
                have hfr : filterRec cond k (Task.mk i d tg cx c subs') path
                    res' false =
                    ((filterRecList cond subs' (path ++ [k]) res').1,
                      false) := by
                  simp [filterRec, heval', hflag, hsm']
                rw [hfr]
                constructor
                · simp [subtreeHasMatch, heval', hsm']
                · intro j
                  simp only
                  rw [hkeys]
                  simp [visInTask, heval', hsm',
                    visInForest_false cond subs' hsm' j]
          have hstep : filterRecList cond
              ((k, Task.mk i d tg cx c subs') :: tl) path res =
              ((filterRecList cond tl path
                  (filterRec cond k (Task.mk i d tg cx c subs') path res
                    false).1).1,
                (filterRec cond k (Task.mk i d tg cx c subs') path res
                    false).2 ||
                (filterRecList cond tl path
                  (filterRec cond k (Task.mk i d tg cx c subs') path res
                    false).1).2) := by
            simp [filterRecList]
          rw [hstep]
          obtain ⟨hflag1, hkeys1⟩ := hhead res
          obtain ⟨hflag2, hkeys2⟩ := ihtl path
            (filterRec cond k (Task.mk i d tg cx c subs') path res false).1
          constructor
          · simp [hflag1, hflag2, forestHasMatch]
          · intro j
            rw [hkeys2, hkeys1]
            simp only [visInForest]
            constructor
            · rintro ((hres | hvt) | hvf)
              · exact Or.inl hres
              · right
                simp [hvt]
              · right
                simp [hvf]
            · rintro (hres | hor)
              · exact Or.inl (Or.inl hres)
              · simp only [Bool.or_eq_true] at hor
                rcases hor with hvt | hvf
                · exact Or.inl (Or.inr hvt)
                · exact Or.inr hvf

lemma taskAt_isSome_ne_nil (f : PMap Task) (p : List Nat)
    (h : (taskAt f p).isSome) : p ≠ [] := by
  intro hcontra
  subst hcontra
  simp [taskAt] at h

lemma getLast?_cons_ne_nil (a : Nat) (l : List Nat) (h : l ≠ []) :
    (a :: l).getLast? = l.getLast? := by
  cases l with
  | nil => exact absurd rfl h
  | cons b t => simp [List.getLast?]

lemma taskAt_cons_head (k : Nat) (t : Task) (tl : PMap Task)
    (rest : List Nat) :
    taskAt ((k, t) :: tl) (k :: rest) =
      if rest.isEmpty then some t else taskAt t.subtasks rest := by
  simp [taskAt, getv]

lemma taskAt_cons_ne_head (k : Nat) (t : Task) (tl : PMap Task) (p0 : Nat)
    (rest : List Nat) (hka : ¬ k = p0) :
    taskAt ((k, t) :: tl) (p0 :: rest) = taskAt tl (p0 :: rest) := by
  simp [taskAt, getv, hka]

lemma taskAt_cons_ne (k : Nat) (t : Task) (tl : PMap Task) (p : List Nat)
    (hw : containsKey tl k = false) (hp : (taskAt tl p).isSome) :
    taskAt ((k, t) :: tl) p = taskAt tl p := by
  cases p with
  | nil => simp [taskAt]
  | cons a rest =>
      simp only [taskAt] at hp
      cases hg : getv tl a with
      | none => rw [hg] at hp; simp at hp
      | some s =>
          have hka : ¬ k = a := by
            intro hcontra
            subst hcontra
            have hmem : containsKey tl k = true := by
              rw [containsKey_iff_mem_keys]
              exact List.mem_map.mpr ⟨(k, s), getv_mem tl k s hg, rfl⟩
            rw [hw] at hmem
            cases hmem
          rw [taskAt_cons_ne_head k t tl a rest hka]

lemma flatten_to_path (forest : PMap Task) :
    wfForest forest = true → ∀ j, j ∈ flattenTasks forest →
    ∃ p, (taskAt forest p).isSome ∧ p.getLast? = some j := by
  induction forest using forestInd with
  | hnil => intro _ j hj; simp [flattenTasks] at hj
  | hcons k t tl iht ihtl =>
      intro hwf j hj
      cases t with
      | mk i d tg cx c subs' =>
          simp only [wfForest, wfTask, Bool.and_eq_true,
            Bool.not_eq_true'] at hwf
          obtain ⟨⟨hwh, hwt⟩, hwtl⟩ := hwf
          simp only [Task.subtasks] at iht
          simp only [flattenTasks, List.cons_append, List.mem_cons,
            List.mem_append] at hj
          rcases hj with rfl | hsub | htl
          · exact ⟨[j], by simp [taskAt, getv], by simp⟩
          · obtain ⟨p', hps, hpl⟩ := iht hwt j hsub
            have hpne := taskAt_isSome_ne_nil _ _ hps
            have hempty : p'.isEmpty = false := by simp [hpne]
            refine ⟨k :: p', ?_, ?_⟩
            · rw [taskAt_cons_head, hempty]
              simpa [Task.subtasks] using hps
            · rw [getLast?_cons_ne_nil k p' hpne]
              exact hpl
          · obtain ⟨p, hps, hpl⟩ := ihtl hwtl j htl
            refine ⟨p, ?_, hpl⟩
            rw [taskAt_cons_ne _ _ _ _ hwh hps]
            exact hps

lemma path_to_flatten (p : List Nat) : ∀ (forest : PMap Task) (j : Nat),
    (taskAt forest p).isSome → p.getLast? = some j →
    j ∈ flattenTasks forest := by
  induction p with
  | nil => intro forest j hs _; simp [taskAt] at hs
  | cons a rest ih =>
      intro forest j hs hl
      simp only [taskAt] at hs
      cases hg : getv forest a with
      | none => rw [hg] at hs; simp at hs
      | some t =>
          rw [hg] at hs
          by_cases hr : rest = []
          · subst hr
            simp at hl
            subst hl
            exact key_mem_flattenTasks forest a t (getv_mem forest a t hg)
          · have hempty : rest.isEmpty = false := by simp [hr]
            rw [hempty] at hs
            simp only [Bool.false_eq_true, if_false] at hs
            rw [getLast?_cons_ne_nil a rest hr] at hl
            exact subtree_flatten_subset forest a t j
              (getv_mem forest a t hg) (ih t.subtasks j hs hl)

lemma match_to_path (cond : Condition) (forest : PMap Task) :
    wfForest forest = true → forestHasMatch cond forest = true →
    ∃ q t, taskAt forest q = some t ∧ cond.evaluate t = true := by
  induction forest using forestInd with
  | hnil => intro _ h; simp [forestHasMatch] at h
  | hcons k t tl iht ihtl =>
      intro hwf h
      cases t with
      | mk i d tg cx c subs' =>
          simp only [wfForest, wfTask, Bool.and_eq_true,
            Bool.not_eq_true'] at hwf
          obtain ⟨⟨hwh, hwt⟩, hwtl⟩ := hwf
          simp only [Task.subtasks] at iht
          simp only [forestHasMatch, subtreeHasMatch,
            Bool.or_eq_true] at h
          rcases h with (heval | hsub) | htl
          · exact ⟨[k], Task.mk i d tg cx c subs',
              by simp [taskAt, getv], heval⟩
          · obtain ⟨q', t', hq', hev⟩ := iht hwt hsub
            have hqne := taskAt_isSome_ne_nil subs' q' (by simp [hq'])
            have hempty : q'.isEmpty = false := by simp [hqne]
            refine ⟨k :: q', t', ?_, hev⟩
            rw [taskAt_cons_head, hempty]
            simpa [Task.subtasks] using hq'
          · obtain ⟨q, t', hq, hev⟩ := ihtl hwtl htl
            refine ⟨q, t', ?_, hev⟩
            rw [taskAt_cons_ne _ _ _ _ hwh (by simp [hq])]
            exact hq

lemma path_to_match (cond : Condition) (q : List Nat) :
    ∀ (forest : PMap Task) (t : Task), taskAt forest q = some t →
    cond.evaluate t = true → forestHasMatch cond forest = true := by
  induction q with
  | nil => intro forest t h _; simp [taskAt] at h
  | cons a rest ih =>
      intro forest t h hev
      simp only [taskAt] at h
      cases hg : getv forest a with
      | none => rw [hg] at h; simp at h
      | some s =>
          rw [hg] at h
          by_cases hr : rest = []
          · subst hr
            have hst : s = t := by simpa using h
            have hev' : cond.evaluate s = true := by rw [hst]; exact hev
            refine subtreeHasMatch_of_mem cond forest a s
              (getv_mem forest a s hg) ?_
            cases s with
            | mk i d tg cx c subs' => simp [subtreeHasMatch, hev']
          · have hempty : rest.isEmpty = false := by simp [hr]
            rw [hempty] at h
            simp only [Bool.false_eq_true, if_false] at h
            refine subtreeHasMatch_of_mem cond forest a s
              (getv_mem forest a s hg) ?_
            have := ih s.subtasks t h hev
            cases s with
            | mk i d tg cx c subs' =>
                simp only [Task.subtasks] at this
                simp [subtreeHasMatch, this]

lemma nat_contains_iff (l : List Nat) (x : Nat) :
    l.contains x = true ↔ x ∈ l := by
  simp

lemma visInForest_iff_paths (cond : Condition) (forest : PMap Task) :
    wfForest forest = true → ∀ j,
    (visInForest cond forest j = true ↔
      ∃ p q, p.getLast? = some j ∧ (taskAt forest p).isSome ∧
        (q <+: p ∨ p <+: q) ∧
        ∃ t, taskAt forest q = some t ∧ cond.evaluate t = true) := by
  induction forest using forestInd with
  | hnil =>
      intro _ j
      constructor
      · intro h
        simp [visInForest] at h
      · rintro ⟨p, q, hl, hs, hrel, t, hq, hev⟩
        exfalso
        cases p with
        | nil => simp [taskAt] at hs
        | cons a r => simp [taskAt, getv] at hs
  | hcons k t0 tl iht ihtl =>
      intro hwf j
      cases t0 with
      | mk i d tg cx c subs' =>
          simp only [wfForest, wfTask, Bool.and_eq_true,
            Bool.not_eq_true'] at hwf
          obtain ⟨⟨hwh, hwt⟩, hwtl⟩ := hwf
          simp only [Task.subtasks] at iht
          constructor
          · intro hv
            simp only [visInForest, Bool.or_eq_true] at hv
            rcases hv with hvt | hvf
            · by_cases heval :
                  cond.evaluate (Task.mk i d tg cx c subs') = true
              · rw [visInTask, if_pos heval] at hvt
                simp only [Bool.or_eq_true, beq_iff_eq,
                  nat_contains_iff] at hvt
                rcases hvt with rfl | hsub
                · refine ⟨[j], [j], by simp, ?_, Or.inl (List.prefix_refl _),
                    Task.mk i d tg cx c subs', ?_, heval⟩
                  · simp [taskAt_cons_head]
                  · simp [taskAt_cons_head]
                · obtain ⟨p', hps, hpl⟩ := flatten_to_path subs' hwt j hsub
                  have hpne := taskAt_isSome_ne_nil _ _ hps
                  have hempty : p'.isEmpty = false := by simp [hpne]
                  refine ⟨k :: p', [k], ?_, ?_, Or.inl ⟨p', rfl⟩,
                    Task.mk i d tg cx c subs', ?_, heval⟩
                  · rw [getLast?_cons_ne_nil k p' hpne]
                    exact hpl
                  · rw [taskAt_cons_head, hempty]
                    simpa [Task.subtasks] using hps
                  · simp [taskAt_cons_head]
              · have heval' : cond.evaluate (Task.mk i d tg cx c subs') =
                    false := by simp [heval]
                rw [visInTask, if_neg (by simp [heval'])] at hvt
                by_cases hfm : forestHasMatch cond subs' = true
                · rw [if_pos hfm] at hvt
                  simp only [Bool.or_eq_true, beq_iff_eq] at hvt
                  rcases hvt with rfl | hvis
                  · obtain ⟨q', t', hq', hev⟩ :=
                      match_to_path cond subs' hwt hfm
                    have hqne := taskAt_isSome_ne_nil subs' q'
                      (by simp [hq'])
                    have hempty : q'.isEmpty = false := by simp [hqne]
                    refine ⟨[j], j :: q', by simp, by simp [taskAt_cons_head],
                      Or.inr ⟨q', rfl⟩, t', ?_, hev⟩
                    rw [taskAt_cons_head, hempty]
                    simpa [Task.subtasks] using hq'
                  · obtain ⟨p', q', hl', hs', hrel', t', hq', hev'⟩ :=
                      (iht hwt j).mp hvis
                    have hpne := taskAt_isSome_ne_nil _ _ hs'
                    have hqne := taskAt_isSome_ne_nil subs' q'
                      (by simp [hq'])
                    have hpempty : p'.isEmpty = false := by simp [hpne]
                    have hqempty : q'.isEmpty = false := by simp [hqne]
                    refine ⟨k :: p', k :: q', ?_, ?_, ?_, t', ?_, hev'⟩
                    · rw [getLast?_cons_ne_nil k p' hpne]
                      exact hl'
                    · rw [taskAt_cons_head, hpempty]
                      simpa [Task.subtasks] using hs'
                    · rcases hrel' with ⟨r, hr⟩ | ⟨r, hr⟩
                      · exact Or.inl ⟨r, by simp [hr]⟩
                      · exact Or.inr ⟨r, by simp [hr]⟩
                    · rw [taskAt_cons_head, hqempty]
                      simpa [Task.subtasks] using hq'
                · rw [if_neg hfm] at hvt
                  cases hvt
            · obtain ⟨p, q, hl, hs, hrel, t', hq, hev⟩ :=
                (ihtl hwtl j).mp hvf
              refine ⟨p, q, hl, ?_, hrel, t', ?_, hev⟩
              · rw [taskAt_cons_ne _ _ _ _ hwh hs]
                exact hs
              · rw [taskAt_cons_ne _ _ _ _ hwh (by simp [hq])]
                exact hq
          · rintro ⟨p, q, hl, hs, hrel, t', hq, hev⟩
            have hpne : p ≠ [] := taskAt_isSome_ne_nil _ _ hs
            have hqne : q ≠ [] :=
              taskAt_isSome_ne_nil ((k, Task.mk i d tg cx c subs') :: tl) q
                (by simp [hq])
            obtain ⟨p0, prest, rfl⟩ := List.exists_cons_of_ne_nil hpne
            obtain ⟨q0, qrest, rfl⟩ := List.exists_cons_of_ne_nil hqne
            have hheads : q0 = p0 := by
              rcases hrel with ⟨r, hr⟩ | ⟨r, hr⟩
              · simp only [List.cons_append, List.cons.injEq] at hr
                exact hr.1
              · simp only [List.cons_append, List.cons.injEq] at hr
                exact hr.1.symm
            subst hheads
            simp only [visInForest, Bool.or_eq_true]
            by_cases hp0 : q0 = k
            · rw [hp0] at hl hs hq hrel
              left
              rw [taskAt_cons_head] at hs hq
              by_cases hqr : qrest = []
              · subst hqr
                simp only [List.isEmpty_nil, if_pos,
                  Option.some.injEq] at hq
                have heval : cond.evaluate (Task.mk i d tg cx c subs') =
                    true := by rw [hq]; exact hev
                by_cases hpr : prest = []
                · subst hpr
                  have hjk : j = k := by
                    simpa using hl.symm
                  simp [visInTask, heval, hjk]
                · have hempty : prest.isEmpty = false := by simp [hpr]
                  rw [hempty] at hs
                  simp only [Bool.false_eq_true, if_false,
                    Task.subtasks] at hs
                  rw [getLast?_cons_ne_nil k prest hpr] at hl
                  have hjf : j ∈ flattenTasks subs' :=
                    path_to_flatten prest subs' j hs hl
                  simp [visInTask, heval, nat_contains_iff, hjf]
              · have hqempty : qrest.isEmpty = false := by simp [hqr]
                rw [hqempty] at hq
                simp only [Bool.false_eq_true, if_false,
                  Task.subtasks] at hq
                have hfm : forestHasMatch cond subs' = true :=
                  path_to_match cond qrest subs' t' hq hev
                by_cases hpr : prest = []
                · subst hpr
                  have hjk : j = k := by
                    simpa using hl.symm
                  by_cases heval :
                      cond.evaluate (Task.mk i d tg cx c subs') = true
                  · simp [visInTask, heval, hjk]
                  · simp [visInTask, heval, hfm, hjk]
                · have hpempty : prest.isEmpty = false := by simp [hpr]
                  rw [hpempty] at hs
                  simp only [Bool.false_eq_true, if_false,
                    Task.subtasks] at hs
                  rw [getLast?_cons_ne_nil k prest hpr] at hl
                  have hrel' : qrest <+: prest ∨ prest <+: qrest := by
                    rcases hrel with ⟨r, hr⟩ | ⟨r, hr⟩
                    · simp only [List.cons_append, List.cons.injEq] at hr
                      exact Or.inl ⟨r, hr.2⟩
                    · simp only [List.cons_append, List.cons.injEq] at hr
                      exact Or.inr ⟨r, hr.2⟩
                  have hvf' : visInForest cond subs' j = true :=
                    (iht hwt j).mpr ⟨prest, qrest, hl, hs, hrel', t', hq,
                      hev⟩
                  by_cases heval :
                      cond.evaluate (Task.mk i d tg cx c subs') = true
                  · have hjf : j ∈ flattenTasks subs' :=
                      path_to_flatten prest subs' j hs hl
                    simp [visInTask, heval, nat_contains_iff, hjf]
                  · simp [visInTask, heval, hfm, hvf']
            · have hkp : ¬ k = q0 := fun hh => hp0 hh.symm
              right
              rw [taskAt_cons_ne_head k _ tl q0 prest hkp] at hs
              rw [taskAt_cons_ne_head k _ tl q0 qrest hkp] at hq
              exact (ihtl hwtl j).mpr
                ⟨q0 :: prest, q0 :: qrest, hl, hs, hrel, t', hq, hev⟩

/-- C1: under the sibling-key well-formedness that the Rust ordered map
guarantees by construction, a task id is a key of the visible-set produced
by the filtering algorithm iff some occurrence of it (a resolving path `p`
ending in the id) has a node on its root path (an ancestor or itself, a
prefix `q` of `p`) or a node below it (a descendant or itself, an extension
`q` of `p`) satisfying the condition. Matches pull in their whole subtree
and all ancestors; a task with no matching ancestor, descendant or self is
excluded even when a sibling matches. -/
theorem c1_filter_visibility (tasks : PMap Task) (cond : Condition)
    (id : Nat) (hwf : wfForest tasks = true) :
    containsKey (filter_tasks tasks cond) id = true ↔
      ∃ p q, p.getLast? = some id ∧ (taskAt tasks p).isSome ∧
        (q <+: p ∨ p <+: q) ∧
        ∃ t, taskAt tasks q = some t ∧ cond.evaluate t = true := by
  have hchar := ((filterRecList_char cond tasks) [] []).2 id
  rw [show filter_tasks tasks cond = (filterRecList cond tasks [] []).1
    from rfl]
  constructor
  · intro h
    rcases hchar.mp h with hfalse | hvis
    · simp [containsKey] at hfalse
    · exact (visInForest_iff_paths cond tasks hwf id).mp hvis
  · intro h
    exact hchar.mpr
      (Or.inr ((visInForest_iff_paths cond tasks hwf id).mpr h))

/-- C1 witness: in a concrete tree where only task 2 carries tag `x`, the
descendant 3 of the match is visible (ancestor/self/descendant paths are
exhibited explicitly), as is the ancestor 1. -/
theorem c1_filter_visibility_witness :
    wfForest
        [(1, Task.mk 1 "r" [] [] false
            [(2, Task.mk 2 "m" ["x"] [] false
                [(3, Task.mk 3 "d" [] [] false [])]),
             (5, Task.mk 5 "s" [] [] false [])]),
         (4, Task.mk 4 "o" [] [] false [])] = true ∧
    containsKey (filter_tasks
        [(1, Task.mk 1 "r" [] [] false
            [(2, Task.mk 2 "m" ["x"] [] false
                [(3, Task.mk 3 "d" [] [] false [])]),
             (5, Task.mk 5 "s" [] [] false [])]),
         (4, Task.mk 4 "o" [] [] false [])] (Condition.tag "x")) 3 = true ∧
    containsKey (filter_tasks
        [(1, Task.mk 1 "r" [] [] false
            [(2, Task.mk 2 "m" ["x"] [] false
                [(3, Task.mk 3 "d" [] [] false [])]),
             (5, Task.mk 5 "s" [] [] false [])]),
         (4, Task.mk 4 "o" [] [] false [])] (Condition.tag "x")) 1 = true := by
  have hwf : wfForest
      [(1, Task.mk 1 "r" [] [] false
          [(2, Task.mk 2 "m" ["x"] [] false
              [(3, Task.mk 3 "d" [] [] false [])]),
           (5, Task.mk 5 "s" [] [] false [])]),
       (4, Task.mk 4 "o" [] [] false [])] = true := by
    simp [wfForest, wfTask, containsKey]
  refine ⟨hwf, ?_, ?_⟩
  · exact (c1_filter_visibility _ _ 3 hwf).mpr
      ⟨[1, 2, 3], [1, 2], by simp, by rfl, Or.inl ⟨[3], rfl⟩,
       Task.mk 2 "m" ["x"] [] false [(3, Task.mk 3 "d" [] [] false [])],
       by rfl, by rfl⟩
  · exact (c1_filter_visibility _ _ 1 hwf).mpr
      ⟨[1], [1, 2], by simp, by rfl, Or.inr ⟨[2], rfl⟩,
       Task.mk 2 "m" ["x"] [] false [(3, Task.mk 3 "d" [] [] false [])],
       by rfl, by rfl⟩

/-! ## C3: the new-selection rules and the nearest-match search -/

/-- The candidates probed at one offset of `bfs_find_closest_task`: the
forward index first, then (for positive offsets that do not underflow) the
backward index. -/
def probeAt (flat : List Nat) (selIdx off : Nat) : List Nat :=
  (match flat.get? (selIdx + off) with
   | some fid => [fid]
   | none => []) ++
  (if 0 < off ∧ off ≤ selIdx then
     match flat.get? (selIdx - off) with
     | some bid => [bid]
     | none => []
   else [])

lemma find?_append_opt (p : Nat → Bool) (l₁ l₂ : List Nat) :
    (l₁ ++ l₂).find? p =
      match l₁.find? p with
      | some x => some x
      | none => l₂.find? p := by
  induction l₁ with
  | nil => simp
  | cons a tl ih =>
      by_cases ha : p a = true
      · simp [List.find?, ha]
      · simp only [List.cons_append, List.find?]
        rw [show p a = false from by simp [ha]]
        exact ih

lemma bfsLoop_eq_probe (flat : List Nat) (filtered : VisMap)
    (selIdx : Nat) : ∀ (fuel off : Nat),
    bfsLoop flat filtered selIdx off fuel =
      ((List.range fuel).flatMap
        (fun k => probeAt flat selIdx (off + k))).find?
        (fun x => containsKey filtered x) := by
  intro fuel
  induction fuel with
  | zero =>
      intro off
      rw [bfsLoop.eq_def]
      simp
  | succ f ih =>
      intro off
      rw [bfsLoop.eq_def]
      simp only [Nat.succ_ne_zero, if_false]
      rw [List.range_succ_eq_map, List.flatMap_cons, List.flatMap_map]
      have harith : ∀ k, off + Nat.succ k = (off + 1) + k := by omega
      rw [find?_append_opt]
      have hrest : ((List.range f).flatMap
            fun a => probeAt flat selIdx (off + Nat.succ a)).find?
            (fun x => containsKey filtered x) =
          bfsLoop flat filtered selIdx (off + 1) f := by
        rw [ih (off + 1)]
        have hfun : (fun a => probeAt flat selIdx (off + Nat.succ a)) =
            (fun k => probeAt flat selIdx ((off + 1) + k)) := by
          funext a
          rw [harith a]
        rw [hfun]
      rw [hrest]
      rw [show off + 0 = off from rfl]
      unfold probeAt
      rw [find?_append_opt]
      cases hf : flat.get? (selIdx + off) with
      | some fid =>
          by_cases hcf : containsKey filtered fid = true
          · simp [List.find?, hcf]
          · simp only [List.find?]
            rw [show containsKey filtered fid = false from by simp [hcf]]
            simp only [List.find?_nil]
            by_cases hcond : 0 < off ∧ off ≤ selIdx
            · simp only [if_pos hcond]
              cases hb : flat.get? (selIdx - off) with
              | some bid =>
                  by_cases hcb : containsKey filtered bid = true
                  · simp [List.find?, hcb, hcond, hcf]
                  · simp only [List.find?]
                    rw [show containsKey filtered bid = false from by
                      simp [hcb]]
                    simp [hcond, hcf, hcb]
              | none => simp [hcond, hcf]
            · simp only [if_neg hcond]
              simp [hcond, hcf]
      | none =>
          simp only [List.find?_nil]
          by_cases hcond : 0 < off ∧ off ≤ selIdx
          · simp only [if_pos hcond]
            cases hb : flat.get? (selIdx - off) with
            | some bid =>
                by_cases hcb : containsKey filtered bid = true
                · simp [List.find?, hcb, hcond]
                · simp only [List.find?]
                  rw [show containsKey filtered bid = false from by
                    simp [hcb]]
                  simp [hcond, hcb]
            | none => simp [hcond]
          · simp only [if_neg hcond]
            simp [hcond]

/-- C3: the new selection is decided by the first applicable rule — (1) a
desired id present in the new visible-set; (2) else a still-visible previous
selection; (3) else the nearest-match search over the pre-order flattening
of the model's (unfiltered, pre-mutation) tree, probing ids at increasing
offset from the previous selection's position, forward before backward at
each offset, taking the first id present in the new visible-set; (4) else
the first key of the visible-set, or none when it is empty. For the flat
list [A, B, C, D] with B selected, removing B selects C. -/
theorem c3_selection_rules :
    (∀ (m : Model) (filtered : VisMap) (d : Nat),
        containsKey filtered d = true →
        m.getNewSelection filtered (some d) = some d) ∧
    (∀ (m : Model) (filtered : VisMap) (desired : Option Nat) (sel : Nat),
        (∀ d, desired = some d → containsKey filtered d = false) →
        m.selectedTask = some sel → containsKey filtered sel = true →
        m.getNewSelection filtered desired = some sel) ∧
    (∀ (m : Model) (filtered : VisMap) (desired : Option Nat) (sel : Nat),
        (∀ d, desired = some d → containsKey filtered d = false) →
        m.selectedTask = some sel → containsKey filtered sel = false →
        m.getNewSelection filtered desired =
          match bfsFindClosestTask m.tasks filtered sel with
          | some c => some c
          | none => getKeyAtIndex filtered 0) ∧
    (∀ (tree : PMap Task) (filtered : VisMap) (sel : Nat),
        bfsFindClosestTask tree filtered sel =
          match (flattenTasks tree).findIdx? (· == sel) with
          | none => none
          | some selIdx =>
              ((List.range
                  (max (flattenTasks tree).length selIdx + 1)).flatMap
                (fun k => probeAt (flattenTasks tree) selIdx k)).find?
                (fun x => containsKey filtered x)) ∧
    (∀ (m : Model) (filtered : VisMap) (desired : Option Nat),
        (∀ d, desired = some d → containsKey filtered d = false) →
        m.selectedTask = none →
        m.getNewSelection filtered desired = getKeyAtIndex filtered 0) ∧
    (∀ (e : Nat × List Nat) (tlf : VisMap),
        getKeyAtIndex (e :: tlf) 0 = some e.1) ∧
    (getKeyAtIndex ([] : VisMap) 0 = none) ∧
    ((Model.withRemovedTask
        { tasks := [(1, Task.mk 1 "A" [] [] false []),
                    (2, Task.mk 2 "B" [] [] false []),
                    (3, Task.mk 3 "C" [] [] false []),
                    (4, Task.mk 4 "D" [] [] false [])],
          filters := [], selectedFilterId := none,
          currentFilter := ⟨"", Condition.alwaysTrue⟩,
          filteredTasks := [(1, [1]), (2, [2]), (3, [3]), (4, [4])],
          selectedTask := some 2, message := .nomsg, mode := .list,
          overlay := .noOverlay, input := "", cursor := 0 }
        [2]).toOption.map Model.selectedTask = some (some 3)) := by
  refine ⟨?_, ?_, ?_, ?_, ?_, ?_, rfl, ?_⟩
  · intro m filtered d hd
    simp [Model.getNewSelection, hd]
  · intro m filtered desired sel hdes hsel hcont
    cases desired with
    | none => simp [Model.getNewSelection, hsel, hcont]
    | some d =>
        have hd := hdes d rfl
        simp [Model.getNewSelection, hsel, hcont, hd]
  · intro m filtered desired sel hdes hsel hcont
    cases desired with
    | none =>
        cases hb : bfsFindClosestTask m.tasks filtered sel with
        | none => simp [Model.getNewSelection, hsel, hcont, hb]
        | some c => simp [Model.getNewSelection, hsel, hcont, hb]
    | some d =>
        have hd := hdes d rfl
        cases hb : bfsFindClosestTask m.tasks filtered sel with
        | none => simp [Model.getNewSelection, hsel, hcont, hb, hd]
        | some c => simp [Model.getNewSelection, hsel, hcont, hb, hd]
  · intro tree filtered sel
    rw [bfsFindClosestTask]
    cases hidx : (flattenTasks tree).findIdx? (· == sel) with
    | none => simp [hidx]
    | some selIdx =>
        simp only [hidx]
        rw [bfsLoop_eq_probe]
        simp
  · intro m filtered desired hdes hsel
    cases desired with
    | none => simp [Model.getNewSelection, hsel]
    | some d =>
        have hd := hdes d rfl
        simp [Model.getNewSelection, hsel, hd]
  · intro e tlf
    simp [getKeyAtIndex, keys]
  · simp [Model.withRemovedTask, removeTaskAtPath, containsKey, removeKey,
      filter_tasks, filterRecList, filterRec, filterIncludeAllList,
      filterIncludeAll, insertPM, Condition.evaluate,
      Model.getNewSelection, bfsFindClosestTask, flattenTasks, bfsLoop,
      getKeyAtIndex, keys, getv, Except.toOption, Task.subtasks,
      List.findIdx?]

/-- C3 witness: the rules applied at concrete inputs. -/
theorem c3_selection_rules_witness :
    (Model.new 0).getNewSelection [(7, [7])] (some 7) = some 7 ∧
    (Model.new 0).getNewSelection [] none = none := by
  constructor
  · exact c3_selection_rules.1 (Model.new 0) [(7, [7])] 7 (by decide)
  · have h := c3_selection_rules.2.2.2.2.1 (Model.new 0) [] none
      (by intro d hd; cases hd) rfl
    simpa [getKeyAtIndex, keys] using h

/-! ## C8: a present selection is always a key of the visible-set -/

/-- The selection invariant. -/
def InvM (m : Model) : Prop :=
  ∀ id, m.selectedTask = some id → containsKey m.filteredTasks id = true

/-- Every snapshot retained in either history stack satisfies the selection
invariant. -/
def InvH (h : History) : Prop :=
  (∀ e ∈ h.undoStack, InvM e.1) ∧ (∀ e ∈ h.redoStack, InvM e.1)

lemma getKeyAtIndex_contains {V : Type} (m : PMap V) (i k : Nat)
    (h : getKeyAtIndex m i = some k) : containsKey m k = true := by
  rw [containsKey_iff_mem_keys]
  exact List.get?_mem h

lemma bfs_contains (tree : PMap Task) (filtered : VisMap) (sel c : Nat)
    (h : bfsFindClosestTask tree filtered sel = some c) :
    containsKey filtered c = true := by
  simp only [bfsFindClosestTask] at h
  cases hidx : (flattenTasks tree).findIdx? (· == sel) with
  | none =>
      simp only [hidx] at h
      simp at h
  | some selIdx =>
      simp only [hidx] at h
      rw [bfsLoop_eq_probe] at h
      exact List.find?_some h

lemma getNewSelection_contains (m : Model) (filtered : VisMap)
    (desired : Option Nat) (id : Nat)
    (h : m.getNewSelection filtered desired = some id) :
    containsKey filtered id = true := by
  simp only [Model.getNewSelection] at h
  split at h
  · -- desired = some d
    split at h
    · rename_i hd
      obtain rfl : _ = id := by simpa using h
      exact hd
    · split at h
      · -- previous selection branch
        split at h
        · rename_i hc
          obtain rfl : _ = id := by simpa using h
          exact hc
        · split at h
          · rename_i hsel hc c hb
            obtain rfl : c = id := by simpa using h
            exact bfs_contains m.tasks filtered _ c hb
          · exact getKeyAtIndex_contains filtered 0 id h
      · exact getKeyAtIndex_contains filtered 0 id h
  · -- desired = none
    split at h
    · split at h
      · rename_i hc
        obtain rfl : _ = id := by simpa using h
        exact hc
      · split at h
        · rename_i hsel hc c hb
          obtain rfl : c = id := by simpa using h
          exact bfs_contains m.tasks filtered _ c hb
        · exact getKeyAtIndex_contains filtered 0 id h
    · exact getKeyAtIndex_contains filtered 0 id h

lemma InvM_withTasks (m : Model) (ts : PMap Task) (d : Option Nat) :
    InvM (m.withTasks ts d) := by
  intro id hid
  simp only [Model.withTasks] at hid ⊢
  exact getNewSelection_contains m _ d id hid

lemma InvM_withFlippedCompletion (m m' : Model) (path : List Nat)
    (h : m.withFlippedCompletion path = .ok m') : InvM m' := by
  simp only [Model.withFlippedCompletion] at h
  cases hf : flipTaskAndUpdateParents m.tasks path with
  | error e => rw [hf] at h; cases h
  | ok nt =>
      rw [hf] at h
      obtain rfl : _ = m' := by simpa using h
      intro id hid
      simp only at hid ⊢
      exact getNewSelection_contains m _ none id hid

lemma InvM_withRemovedTask (m m' : Model) (path : List Nat)
    (h : m.withRemovedTask path = .ok m') : InvM m' := by
  simp only [Model.withRemovedTask] at h
  cases hf : removeTaskAtPath m.tasks path with
  | error e => rw [hf] at h; cases h
  | ok nt =>
      rw [hf] at h
      obtain rfl : _ = m' := by simpa using h
      intro id hid
      simp only at hid ⊢
      exact getNewSelection_contains m _ none id hid

lemma InvM_withSiblingTask (m m' : Model) (task : Task)
    (h : m.withSiblingTask task = .ok m') : InvM m' := by
  simp only [Model.withSiblingTask] at h
  split at h
  · -- getPath = some path
    split at h
    · -- nested: walk through the insert result
      split at h
      · simp at h
      · obtain rfl : _ = m' := by simpa using h
        exact InvM_withTasks m _ _
    · obtain rfl : _ = m' := by simpa using h
      exact InvM_withTasks m _ _
  · obtain rfl : _ = m' := by simpa using h
    exact InvM_withTasks m _ _

lemma InvM_withChildTask (m m' : Model) (task : Task)
    (h : m.withChildTask task = .ok m') : InvM m' := by
  simp only [Model.withChildTask] at h
  split at h
  · split at h
    · simp at h
    · split at h
      · simp at h
      · obtain rfl : _ = m' := by simpa using h
        exact InvM_withTasks m _ _
  · simp at h

lemma InvM_withFilter (m : Model) (f : Filter) (hm : InvM m) :
    InvM (m.withFilter f) := by
  intro id hid
  simp only [Model.withFilter] at hid ⊢
  exact hm id hid

lemma InvM_withFilterCondition (m : Model) (f : FilterCondition) :
    InvM (m.withFilterCondition f) := by
  intro id hid
  simp only [Model.withFilterCondition] at hid ⊢
  exact getNewSelection_contains m _ none id hid

lemma InvM_withFilterSelect (m m' : Model) (fid : Nat)
    (h : m.withFilterSelect fid = .ok m') : InvM m' := by
  simp only [Model.withFilterSelect] at h
  cases hf : getv m.filters fid with
  | none => rw [hf] at h; cases h
  | some f =>
      rw [hf] at h
      obtain rfl : _ = m' := by simpa using h
      intro id hid
      simp only at hid ⊢
      exact getNewSelection_contains m _ none id hid

lemma withSelectionMoved_filteredTasks (m : Model) (dir : Model.Direction) :
    (m.withSelectionMoved dir).filteredTasks = m.filteredTasks := by
  simp only [Model.withSelectionMoved]
  split
  · rfl
  · split
    · rfl
    · split
      · rfl
      · rfl

lemma InvM_withSelectionMoved (m : Model) (dir : Model.Direction)
    (hm : InvM m) : InvM (m.withSelectionMoved dir) := by
  intro id hid
  rw [withSelectionMoved_filteredTasks m dir]
  simp only [Model.withSelectionMoved] at hid
  split at hid
  · exact hm id hid
  · split at hid
    · -- no previous selection: first or last key
      simp only at hid
      split at hid
      · exact getKeyAtIndex_contains _ _ id hid
      · exact getKeyAtIndex_contains _ _ id hid
    · split at hid
      · exact hm id hid
      · simp only at hid
        exact getKeyAtIndex_contains _ _ id hid

lemma InvM_withSuccess (m : Model) (s : String) (hm : InvM m) :
    InvM (m.withSuccess s) := by
  intro id hid
  exact hm id hid

lemma InvM_withError (m : Model) (s : String) (hm : InvM m) :
    InvM (m.withError s) := by
  intro id hid
  exact hm id hid

lemma InvH_push (h : History) (m : Model) (msg : Message)
    (hh : InvH h) (hm : InvM m) : InvH (h.push m msg) := by
  constructor
  · intro e he
    simp only [History.push] at he
    rw [List.mem_append] at he
    rcases he with he | he
    · have hmem : e ∈ h.undoStack := by
        split at he
        · exact List.tail_subset _ he
        · exact he
      exact hh.1 e hmem
    · have : e = (m, msg) := by simpa using he
      subst this
      exact hm
  · intro e he
    simp [History.push] at he

lemma mem_of_getLastQ {α : Type} {l : List α} {a : α}
    (h : l.getLast? = some a) : a ∈ l := by
  induction l with
  | nil => simp at h
  | cons x xs ih =>
      cases xs with
      | nil =>
          simp [List.getLast?] at h
          simp [h]
      | cons y ys =>
          rw [List.getLast?_cons_cons] at h
          exact List.mem_cons_of_mem _ (ih h)

lemma InvH_undoOp (h : History) (cur : Model) (hh : InvH h) (hc : InvM cur) :
    InvH (h.undoOp cur).2 ∧
    (∀ pm, (h.undoOp cur).1 = some pm → InvM pm) := by
  cases hl : h.undoStack.getLast? with
  | none =>
      simp only [History.undoOp, hl]
      exact ⟨hh, by intro pm hpm; simp at hpm⟩
  | some e =>
      obtain ⟨prev, msg0⟩ := e
      simp only [History.undoOp, hl]
      refine ⟨⟨?_, ?_⟩, ?_⟩
      · intro e he
        simp only at he
        exact hh.1 e (List.dropLast_subset _ he)
      · intro e he
        simp only at he
        rw [List.mem_append] at he
        rcases he with he | he
        · exact hh.2 e he
        · have : e = (cur, msg0) := by simpa using he
          subst this
          exact hc
      · intro pm hpm
        have hp : prev = pm := by simpa using hpm
        subst hp
        exact hh.1 _ (mem_of_getLastQ hl)

lemma InvH_redoOp (h : History) (cur : Model) (hh : InvH h) (hc : InvM cur) :
    InvH (h.redoOp cur).2 ∧
    (∀ nm, (h.redoOp cur).1 = some nm → InvM nm) := by
  cases hl : h.redoStack.getLast? with
  | none =>
      simp only [History.redoOp, hl]
      exact ⟨hh, by intro nm hnm; simp at hnm⟩
  | some e =>
      obtain ⟨next, msg0⟩ := e
      simp only [History.redoOp, hl]
      refine ⟨⟨?_, ?_⟩, ?_⟩
      · intro e he
        simp only at he
        rw [List.mem_append] at he
        rcases he with he | he
        · exact hh.1 e he
        · have : e = (cur, msg0) := by simpa using he
          subst this
          exact hc
      · intro e he
        simp only at he
        exact hh.2 e (List.dropLast_subset _ he)
      · intro nm hnm
        have hp : next = nm := by simpa using hnm
        subst hp
        exact hh.2 _ (mem_of_getLastQ hl)

lemma updateStep_inv (msg : Message) (m : Model) (h : History)
    (hm : InvM m) (hh : InvH h) (r : UpdateResult) (h1 : History)
    (hstep : updateStep msg m h = .ok (r, h1)) :
    InvM r.model ∧ InvH h1 := by
  cases msg with
  | addSiblingTask task =>
      simp only [updateStep] at hstep
      cases hop : m.withSiblingTask task with
      | error e => rw [hop] at hstep; simp at hstep
      | ok nm =>
          rw [hop] at hstep
          have hpair : (⟨nm, some "Added sibling task.", true⟩ :
              UpdateResult) = r ∧ h = h1 := by
            simpa using hstep
          obtain ⟨rfl, rfl⟩ := hpair
          exact ⟨InvM_withSiblingTask m nm task hop, hh⟩
  | addChildTask task =>
      simp only [updateStep] at hstep
      cases hop : m.withChildTask task with
      | error e => rw [hop] at hstep; simp at hstep
      | ok nm =>
          rw [hop] at hstep
          have hpair : (⟨nm, some "Added child task.", true⟩ :
              UpdateResult) = r ∧ h = h1 := by
            simpa using hstep
          obtain ⟨rfl, rfl⟩ := hpair
          exact ⟨InvM_withChildTask m nm task hop, hh⟩
  | removeTask path =>
      simp only [updateStep] at hstep
      cases hop : m.withRemovedTask path with
      | error e => rw [hop] at hstep; simp at hstep
      | ok nm =>
          rw [hop] at hstep
          have hpair : (⟨nm, some "Removed task.", true⟩ :
              UpdateResult) = r ∧ h = h1 := by
            simpa using hstep
          obtain ⟨rfl, rfl⟩ := hpair
          exact ⟨InvM_withRemovedTask m nm path hop, hh⟩
  | addFilter f =>
      simp only [updateStep] at hstep
      have hpair : (⟨m.withFilter f, some "Added new filter.", true⟩ :
          UpdateResult) = r ∧ h = h1 := by
        simpa using hstep
      obtain ⟨rfl, rfl⟩ := hpair
      exact ⟨InvM_withFilter m f hm, hh⟩
  | selectFilter fid =>
      simp only [updateStep] at hstep
      cases hop : m.withFilterSelect fid with
      | error e => rw [hop] at hstep; simp at hstep
      | ok nm =>
          rw [hop] at hstep
          have hpair : (⟨nm, some "Selected filter.", true⟩ :
              UpdateResult) = r ∧ h = h1 := by
            simpa using hstep
          obtain ⟨rfl, rfl⟩ := hpair
          exact ⟨InvM_withFilterSelect m nm fid hop, hh⟩
  | applyFilter f =>
      simp only [updateStep] at hstep
      have hpair : (⟨m.withFilterCondition f, some "Selected filter",
          true⟩ : UpdateResult) = r ∧ h = h1 := by
        simpa using hstep
      obtain ⟨rfl, rfl⟩ := hpair
      exact ⟨InvM_withFilterCondition m f, hh⟩
  | navigate dir =>
      simp only [updateStep] at hstep
      have hpair : (⟨m.withSelectionMoved dir, none, false⟩ :
          UpdateResult) = r ∧ h = h1 := by
        simpa using hstep
      obtain ⟨rfl, rfl⟩ := hpair
      exact ⟨InvM_withSelectionMoved m dir hm, hh⟩
  | undo =>
      simp only [updateStep] at hstep
      obtain ⟨hinv, hprev⟩ := InvH_undoOp h m hh hm
      cases hu : h.undoOp m with
      | mk opt h' =>
          rw [hu] at hstep
          cases opt with
          | none => simp at hstep
          | some prev =>
              simp only [Except.ok.injEq, Prod.mk.injEq] at hstep
              obtain ⟨hr, hh1⟩ := hstep
              subst hh1
              refine ⟨?_, ?_⟩
              · rw [← hr]
                exact hprev prev (by rw [hu])
              · have h2 : (h.undoOp m).2 = h' := by rw [hu]
                rw [← h2]
                exact hinv
  | redo =>
      simp only [updateStep] at hstep
      obtain ⟨hinv, hnext⟩ := InvH_redoOp h m hh hm
      cases hu : h.redoOp m with
      | mk opt h' =>
          rw [hu] at hstep
          cases opt with
          | none => simp at hstep
          | some next =>
              simp only [Except.ok.injEq, Prod.mk.injEq] at hstep
              obtain ⟨hr, hh1⟩ := hstep
              subst hh1
              refine ⟨?_, ?_⟩
              · rw [← hr]
                exact hnext next (by rw [hu])
              · have h2 : (h.redoOp m).2 = h' := by rw [hu]
                rw [← h2]
                exact hinv

lemma update_inv (msg : Message) (m : Model) (h : History)
    (hm : InvM m) (hh : InvH h) :
    InvM (update msg m h).1 ∧ InvH (update msg m h).2 := by
  cases hstep : updateStep msg m h with
  | error e =>
      simp only [update, hstep]
      exact ⟨InvM_withError m e hm, hh⟩
  | ok rh =>
      obtain ⟨r, h1⟩ := rh
      obtain ⟨hrm, hrh⟩ := updateStep_inv msg m h hm hh r h1 hstep
      simp only [update, hstep]
      constructor
      · split
        · exact InvM_withSuccess _ _ hrm
        · exact hrm
      · split
        · exact InvH_push h1 r.model msg hrh hrm
        · exact hrh

/-- The states reachable through the provided operations: the initial model
and history, the `update` entry point for every message (task insertion,
removal, filter addition/selection/application, selection movement, undo,
redo), and the completion-flip model operation. -/
inductive Reachable : Model → History → Prop where
  | init (fid n : Nat) : Reachable (Model.new fid) (History.new n)
  | step (msg : Message) (m : Model) (h : History) :
      Reachable m h → Reachable (update msg m h).1 (update msg m h).2
  | flip (path : List Nat) (m : Model) (h : History) (m' : Model) :
      Reachable m h → m.withFlippedCompletion path = .ok m' →
      Reachable m' h

lemma reachable_inv (m : Model) (h : History) (hr : Reachable m h) :
    InvM m ∧ InvH h := by
  induction hr with
  | init fid n =>
      refine ⟨?_, ?_, ?_⟩
      · intro id hid
        simp [Model.new] at hid
      · intro e he
        simp [History.new] at he
      · intro e he
        simp [History.new] at he
  | step msg m h hr ih => exact update_inv msg m h ih.1 ih.2
  | flip path m h m' hr hok ih =>
      exact ⟨InvM_withFlippedCompletion m m' path hok, ih.2⟩

/-- C8: in every state reachable from the initial model through the provided
operations (insertion, removal, completion flip, filter operations,
selection movement, undo, redo), a present selection is a key of the most
recently computed visible-set — no operation surfaces a dangling
selection. -/
theorem c8_selection_always_visible (m : Model) (h : History)
    (hr : Reachable m h) (id : Nat) (hid : m.selectedTask = some id) :
    containsKey m.filteredTasks id = true :=
  (reachable_inv m h hr).1 id hid

/-- C8 witness: after adding a task to the fresh model, the selection is
that task and it is visible. -/
theorem c8_selection_always_visible_witness :
    (update (.addSiblingTask (Task.mk 1 "a" [] [] false []))
        (Model.new 0) (History.new 2)).1.selectedTask = some 1 ∧
    containsKey (update (.addSiblingTask (Task.mk 1 "a" [] [] false []))
        (Model.new 0) (History.new 2)).1.filteredTasks 1 = true := by
  have hsel : (update (.addSiblingTask (Task.mk 1 "a" [] [] false []))
      (Model.new 0) (History.new 2)).1.selectedTask = some 1 := by
    simp [update, updateStep, Model.withSiblingTask, Model.getPath,
      Model.new, Model.withTasks, filter_tasks, filterRecList, filterRec,
      filterIncludeAllList, filterIncludeAll, insertPM, containsKey,
      Condition.evaluate, Model.getNewSelection, Model.withSuccess,
      getKeyAtIndex, keys, getv, Task.id]
  exact ⟨hsel,
    c8_selection_always_visible _ _
      (Reachable.step _ _ _ (Reachable.init 0 2)) 1 hsel⟩

end Chors
